import Mathlib

/-
  Verification of the wilddawg incremental-DFA-minimization core.

  Shallow embedding of the Go sources:
  - Go maps (map[K]V) are modeled as association lists with unique keys
    (a structural guarantee of Go maps); lookup is first-match.
  - Go pointers to State objects are modeled as natural-number addresses
    into an explicit heap (association list from address to state record).
  - Go errors are an enumeration mirroring the package's error variables.
  - The injected encoding capability (codec.Handle) and 32-bit hash
    capability (hash.Hash32) are modeled as function parameters
    enc : machine-edge map -> byte list and hf : byte list -> Nat;
    the source resets the hash accumulator before every use, so a hash
    call depends only on the encoded bytes.
-/

set_option maxHeartbeats 1000000
set_option linter.unusedSectionVars false

instance {ε α : Type} [DecidableEq ε] [DecidableEq α] :
    DecidableEq (Except ε α)
  | .error e, .error f =>
    if h : e = f then .isTrue (congrArg Except.error h)
    else .isFalse (fun hc => h (Except.error.inj hc))
  | .error _, .ok _ => .isFalse (fun hc => Except.noConfusion hc)
  | .ok _, .error _ => .isFalse (fun hc => Except.noConfusion hc)
  | .ok a, .ok b =>
    if h : a = b then .isTrue (congrArg Except.ok h)
    else .isFalse (fun hc => h (Except.ok.inj hc))

namespace Wilddawg

/-- Association-list lookup, modeling Go map indexing (`m[k]`).
Keys of every list built by the embedded operations are unique, matching
Go map semantics; lookup returns the first match. -/
def lookupA {κ β : Type} [DecidableEq κ] : List (κ × β) → κ → Option β
  | [], _ => none
  | (k', v) :: rest, k => if k = k' then some v else lookupA rest k

/-- Association-list insert-or-replace, modeling Go map assignment
(`m[k] = v`): replaces the binding when the key is present, otherwise
appends a new binding. -/
def setA {κ β : Type} [DecidableEq κ] : List (κ × β) → κ → β → List (κ × β)
  | [], k, v => [(k, v)]
  | (k', v') :: rest, k, v =>
    if k = k' then (k', v) :: rest else (k', v') :: setA rest k v

/-- The keys of an association list are pairwise distinct (always true of
a Go map, which cannot hold duplicate keys). -/
def NodupKeys {κ β : Type} (xs : List (κ × β)) : Prop :=
  (xs.map Prod.fst).Nodup

instance {κ β : Type} (xs : List (κ × β)) [DecidableEq κ] :
    Decidable (NodupKeys xs) := by
  unfold NodupKeys; infer_instance

/-- The error values of the wilddawg package (state.go, register.go,
factory source): each constructor mirrors one exported error variable. -/
inductive GoErr : Type
  | edgeAlreadyUsed
  | edgeNotPresent
  | annotationInvalid
  | notImplemented
  | nilEncoder
  | nilHashFunc
  | invalidStateType
  | registerNilState
  | nonMinimalMachine
  deriving DecidableEq, Repr

/-- A state record: the common data of LazyDfaStatefulState (state.go) and
LazyDfaAnnotatedState (the annotated-variant source file). `edges` maps a
transition label to the address of the destination state (Go: a State
pointer). `annotations` is `none` when the Go Annotations map is nil and
`some xs` when it is a (possibly empty) allocated map with key set `xs`.
The injected Encoding/HashFunc capabilities are threaded as parameters of
the hashing functions instead of being stored. -/
structure St (L A : Type) : Type where
  id : Int
  terminal : Bool
  edges : List (L × Nat)
  annotations : Option (List A)
  deriving DecidableEq, Repr

variable {L A : Type} [DecidableEq L] [DecidableEq A]

/-- NewLazyDfaAnnotatedState: fresh state with the given id, empty edge
map and an allocated empty annotation map. -/
def newAnnotatedSt (i : Int) : St L A :=
  { id := i, terminal := false, edges := [], annotations := some [] }

/-- NewLazyDfaState (stateful variant): same initialization. -/
def newStatefulSt (i : Int) : St L A :=
  { id := i, terminal := false, edges := [], annotations := some [] }

/-- AddEdge: fails with EdgeAlreadyUsed when the label is already mapped,
otherwise inserts the single new binding. Identical method body in both
state variants. -/
def stAddEdge (s : St L A) (l : L) (d : Nat) : Except GoErr (St L A) :=
  match lookupA s.edges l with
  | some _ => .error .edgeAlreadyUsed
  | none => .ok { s with edges := s.edges ++ [(l, d)] }

/-- RemoveEdge: fails with EdgeNotPresent when the label is unmapped or
mapped to a different destination address; otherwise deletes the binding.
Identical method body in both state variants. -/
def stRemoveEdge (s : St L A) (l : L) (d : Nat) : Except GoErr (St L A) :=
  match lookupA s.edges l with
  | none => .error .edgeNotPresent
  | some d' =>
    if d' = d then
      .ok { s with edges := s.edges.eraseP (fun e => decide (e.1 = l)) }
    else .error .edgeNotPresent

/-- FollowEdge: singleton list holding the destination when the label is
mapped, empty list otherwise. -/
def followEdge (s : St L A) (l : L) : List Nat :=
  match lookupA s.edges l with
  | some d => [d]
  | none => []

/-- FollowAllEdges: the deduplicated list of destination addresses (the Go
code collects destinations into a set keyed by State pointer and lists it;
iteration order of a Go map is unspecified, so any fixed order is a
faithful rendering). -/
def followAllEdges (s : St L A) : List Nat :=
  (s.edges.map Prod.snd).dedup

/-- AddAnnotation (`s.Annotations[x] = true`): set insertion, idempotent.
Assignment into a nil Go map panics, which is modeled by `none`. -/
def stAddAnn (s : St L A) (x : A) : Option (St L A) :=
  match s.annotations with
  | none => none
  | some xs =>
    some { s with annotations := some (if x ∈ xs then xs else xs ++ [x]) }

/-- RemoveAnnotation: fails with AnnotationInvalid when the value is not
present (reading a nil Go map yields not-present), otherwise deletes. -/
def stRemoveAnn (s : St L A) (x : A) : Except GoErr (St L A) :=
  match s.annotations with
  | none => .error .annotationInvalid
  | some xs =>
    if x ∈ xs then .ok { s with annotations := some (xs.erase x) }
    else .error .annotationInvalid

/-- GetAnnotations: the key list of the annotation map (empty for nil). -/
def getAnns (s : St L A) : List A :=
  s.annotations.getD []

/-- LazyDfaAnnotatedState.Clone: builds a fresh annotated state with the
same id (NewLazyDfaAnnotatedState, so the terminal flag resets to false),
then copies every edge binding and every annotation entry into the fresh
containers. -/
def cloneAnnotated (s : St L A) : St L A :=
  { id := s.id, terminal := false, edges := s.edges,
    annotations := some (getAnns s) }

/-- LazyDfaStatefulState.Clone (state.go): struct literal copying Id,
Terminal, Encoding, HashFunc and the edge bindings, but NOT the
Annotations field, which is therefore left nil in the clone. -/
def cloneStateful (s : St L A) : St L A :=
  { id := s.id, terminal := s.terminal, edges := s.edges,
    annotations := none }

/-- Placeholder state used to total heap lookup; every theorem carries
hypotheses keeping all dereferenced addresses inside the heap, so this
default is never observed. -/
def defaultSt : St L A :=
  { id := 0, terminal := false, edges := [], annotations := none }

/-- A heap of states: address (Go pointer) to state record. -/
abbrev Heap (L A : Type) : Type := List (Nat × St L A)

/-- Dereference an address. -/
def getSt (g : Heap L A) (a : Nat) : St L A :=
  (lookupA g a).getD defaultSt

/-- GetId of the state at an address. -/
def getId (g : Heap L A) (a : Nat) : Int :=
  (getSt g a).id

/-- MachineEdges: the edge map with each destination pointer resolved to
its current StateId (a derived snapshot). -/
def machineEdges (g : Heap L A) (a : Nat) : List (L × Int) :=
  (getSt g a).edges.map (fun e => (e.1, getId g e.2))

/-- sameMachineEdges (register helper source): equal length and every
binding of the first map present with the same value in the second. -/
def sameMachineEdges (a b : List (L × Int)) : Bool :=
  a.length == b.length &&
  a.all (fun kv => decide (lookupA b kv.1 = some kv.2))

/-- IsomorphismHash with both capabilities configured: canonically encode
MachineEdges and hash the bytes (the accumulator is Reset before Write, so
the result depends only on the bytes). With non-nil capabilities the
annotated variant's nil-check branches are not taken and both variants
compute identically. -/
def isoHash (enc : List (L × Int) → List Nat) (hf : List Nat → Nat)
    (g : Heap L A) (a : Nat) : Nat :=
  hf (enc (machineEdges g a))

/-- Replace the state stored at an address (Go: mutation through the
pointer). -/
def updH (g : Heap L A) (a : Nat) (s' : St L A) : Heap L A :=
  setA g a s'

/-- Heap-level AddEdge at address `a` (in-place mutation semantics: the
returned heap is unchanged when the call errors). -/
def addEdgeH (g : Heap L A) (a : Nat) (l : L) (d : Nat) :
    Heap L A × Except GoErr Unit :=
  match stAddEdge (getSt g a) l d with
  | .error e => (g, .error e)
  | .ok s' => (updH g a s', .ok ())

/-- Heap-level RemoveEdge at address `a`. -/
def removeEdgeH (g : Heap L A) (a : Nat) (l : L) (d : Nat) :
    Heap L A × Except GoErr Unit :=
  match stRemoveEdge (getSt g a) l d with
  | .error e => (g, .error e)
  | .ok s' => (updH g a s', .ok ())

/-- Heap-level SetId at address `a` (never fails). -/
def setIdH (g : Heap L A) (a : Nat) (i : Int) : Heap L A :=
  updH g a { getSt g a with id := i }

/-- Heap-level AddAnnotation at address `a` (`none` models the Go panic on
writing a nil annotation map). -/
def addAnnH (g : Heap L A) (a : Nat) (x : A) : Option (Heap L A) :=
  (stAddAnn (getSt g a) x).map (fun s' => updH g a s')

/-- Heap-level RemoveAnnotation at address `a`. -/
def removeAnnH (g : Heap L A) (a : Nat) (x : A) :
    Heap L A × Except GoErr Unit :=
  match stRemoveAnn (getSt g a) x with
  | .error e => (g, .error e)
  | .ok s' => (updH g a s', .ok ())

/-- An address not yet used by the heap (Go: taking the address of a newly
allocated struct yields a pointer distinct from all existing ones). -/
def freshAddr (g : Heap L A) : Nat :=
  (g.map Prod.fst).foldr (fun x m => max x m) 0 + 1

/-- Heap-level Clone of the annotated variant: allocates the cloned record
at a fresh address and returns that address. -/
def cloneAnnotatedH (g : Heap L A) (a : Nat) : Heap L A × Nat :=
  (g ++ [(freshAddr g, cloneAnnotated (getSt g a))], freshAddr g)

/-- Heap-level Clone of the stateful variant (state.go). -/
def cloneStatefulH (g : Heap L A) (a : Nat) : Heap L A × Nat :=
  (g ++ [(freshAddr g, cloneStateful (getSt g a))], freshAddr g)

/-- The Go StateType constant LAZYDFAANNOTATED (the only variant the
factory source recognizes). -/
def lazyDfaAnnotatedType : Int := 0

/-- EncodeHashStateFactory: the id counter and the configured default
variant (the injected capabilities are threaded separately). -/
structure Factory : Type where
  idCounter : Int
  defaultStateType : Int
  deriving DecidableEq, Repr

/-- EncodeHashStateFactory.NewState: builds a state of the default variant
with the current counter as id, then increments the counter; an
unrecognized default variant fails with InvalidStateType before the
counter is touched. -/
def newStateF (f : Factory) : Factory × Except GoErr (St L A) :=
  if f.defaultStateType = lazyDfaAnnotatedType then
    ({ f with idCounter := f.idCounter + 1 }, .ok (newAnnotatedSt f.idCounter))
  else (f, .error .invalidStateType)

/-- EncodeHashStateFactory.CloneState: clones the original (annotated
variant), assigns the current counter via SetId (which never fails), and
increments the counter. -/
def cloneStateF (f : Factory) (orig : St L A) :
    Factory × Except GoErr (St L A) :=
  ({ f with idCounter := f.idCounter + 1 },
   .ok { cloneAnnotated orig with id := f.idCounter })

/-- One factory call of a construction session. -/
inductive FCall (L A : Type) : Type
  | newState : FCall L A
  | cloneState (orig : St L A) : FCall L A

/-- Run a sequence of factory calls, collecting the ids of the states
handed out by the successful calls, in order. -/
def runCalls (f : Factory) : List (FCall L A) → Factory × List Int
  | [] => (f, [])
  | c :: cs =>
    match c with
    | .newState =>
      match newStateF (L := L) (A := A) f with
      | (f', .ok s) =>
        let r := runCalls f' cs
        (r.1, s.id :: r.2)
      | (f', .error _) => runCalls f' cs
    | .cloneState orig =>
      match cloneStateF f orig with
      | (f', .ok s) =>
        let r := runCalls f' cs
        (r.1, s.id :: r.2)
      | (f', .error _) => runCalls f' cs

/-- CollisionSafeHashMapRegister: hash value to bucket of state addresses
(Go: map[interface{}][]State keyed by the uint32 IsomorphismHash). -/
structure Reg : Type where
  ecMap : List (Nat × List Nat)
  deriving DecidableEq, Repr

/-- Register.Reset / the freshly constructed register: empty class map. -/
def resetReg : Reg := { ecMap := [] }

/-- Register.GetEquivalenceClass. `hashOf` is the composite of the
injected canonical encoder and hash capability applied to a MachineEdges
snapshot (total: both capabilities configured). A nil query fails with
RegisterNilState; otherwise the bucket for the query's hash is scanned
linearly for a member with structurally equal MachineEdges, which is
returned when found; otherwise the query is appended (the bucket being
created when absent) and returned. -/
def getEquivalenceClass (hashOf : List (L × Int) → Nat) (g : Heap L A)
    (r : Reg) : Option Nat → Reg × Except GoErr Nat
  | none => (r, .error .registerNilState)
  | some a =>
    match lookupA r.ecMap (hashOf (machineEdges g a)) with
    | none =>
      ({ ecMap := setA r.ecMap (hashOf (machineEdges g a)) [a] }, .ok a)
    | some b =>
      match b.find? (fun s =>
          sameMachineEdges (machineEdges g a) (machineEdges g s)) with
      | some s => (r, .ok s)
      | none =>
        ({ ecMap := setA r.ecMap (hashOf (machineEdges g a)) (b ++ [a]) },
         .ok a)

/-- Push every destination whose id has not been seen (the body of the
for-loop over FollowAllEdges in Register.Initialize): the destination goes
on top of the stack and its id into the visited set. -/
def pushSucc (g : Heap L A) (acc : Finset Int × List Nat) (dests : List Nat) :
    Finset Int × List Nat :=
  dests.foldl
    (fun acc d => if getId g d ∈ acc.1 then acc else
      (insert (getId g d) acc.1, d :: acc.2)) acc

/-- The depth-first traversal loop of Register.Initialize. The Go loop
pops from the slice end and appends pushes there; the model keeps the top
of the stack at the list head, which preserves the pop order (last pushed
first), and pushes the unseen members of FollowAllEdges in list order --
Go's iteration order over the destination set is unspecified anyway.  The
fuel argument only bounds the iteration count; `initReg` supplies fuel
exceeding the number of heap entries, which dominates the number of
distinct ids and hence the number of pushes, so the fuel never runs out on
a well-formed call. -/
def initLoop (hashOf : List (L × Int) → Nat) (g : Heap L A) :
    Nat → Reg → Finset Int → List Nat → Reg × Except GoErr Unit
  | 0, r, _, _ => (r, .ok ())
  | _ + 1, r, _, [] => (r, .ok ())
  | fuel + 1, r, seen, curr :: rest =>
    match getEquivalenceClass hashOf g r (some curr) with
    | (r', .error e) => (r', .error e)
    | (r', .ok ref) =>
      if getId g ref = getId g curr then
        initLoop hashOf g fuel r'
          (pushSucc g (seen, rest) (followAllEdges (getSt g curr))).1
          (pushSucc g (seen, rest) (followAllEdges (getSt g curr))).2
      else (r', .error .nonMinimalMachine)

/-- Register.Initialize: resets the class map first, then checks the start
state for nil, then runs the stack-based traversal seeded with the start
state and its id. -/
def initReg (hashOf : List (L × Int) → Nat) (g : Heap L A) (_r : Reg)
    (start : Option Nat) : Reg × Except GoErr Unit :=
  match start with
  | none => (resetReg, .error .registerNilState)
  | some s => initLoop hashOf g (g.length + 1) resetReg {getId g s} [s]

/-- All addresses registered in some bucket of the register. -/
def regAddrs (r : Reg) : List Nat :=
  r.ecMap.flatMap Prod.snd

/-!  Basic association-list lemmas. -/

theorem lookupA_none_iff {κ β : Type} [DecidableEq κ] (xs : List (κ × β))
    (k : κ) : lookupA xs k = none ↔ k ∉ xs.map Prod.fst := by
  induction xs with
  | nil => simp [lookupA]
  | cons p rest ih =>
    obtain ⟨k', v⟩ := p
    by_cases h : k = k' <;> simp [lookupA, h, ih]

theorem mem_of_lookupA {κ β : Type} [DecidableEq κ] {xs : List (κ × β)}
    {k : κ} {v : β} (h : lookupA xs k = some v) : (k, v) ∈ xs := by
  induction xs with
  | nil => simp [lookupA] at h
  | cons p rest ih =>
    obtain ⟨k', v'⟩ := p
    by_cases hk : k = k'
    · subst hk
      simp [lookupA] at h
      subst h
      exact List.mem_cons_self _ _
    · simp [lookupA, hk] at h
      exact List.mem_cons_of_mem _ (ih h)

theorem lookupA_of_mem {κ β : Type} [DecidableEq κ] {xs : List (κ × β)}
    {k : κ} {v : β} (hnd : NodupKeys xs) (h : (k, v) ∈ xs) :
    lookupA xs k = some v := by
  induction xs with
  | nil => simp at h
  | cons p rest ih =>
    obtain ⟨k', v'⟩ := p
    unfold NodupKeys at hnd
    simp only [List.map_cons, List.nodup_cons] at hnd
    rcases List.mem_cons.mp h with h1 | h1
    · cases h1
      simp [lookupA]
    · have hk : k ≠ k' := by
        intro hkk
        subst hkk
        exact hnd.1 (List.mem_map.mpr ⟨(k, v), h1, rfl⟩)
      simp [lookupA, hk]
      exact ih hnd.2 h1

theorem lookupA_append {κ β : Type} [DecidableEq κ] (xs ys : List (κ × β))
    (k : κ) : lookupA (xs ++ ys) k = (lookupA xs k).or (lookupA ys k) := by
  induction xs with
  | nil => simp [lookupA]
  | cons p rest ih =>
    obtain ⟨k', v⟩ := p
    by_cases h : k = k' <;> simp [lookupA, h, ih]

theorem lookupA_setA_self {κ β : Type} [DecidableEq κ]
    (xs : List (κ × β)) (k : κ) (v : β) :
    lookupA (setA xs k v) k = some v := by
  induction xs with
  | nil => simp [setA, lookupA]
  | cons p rest ih =>
    obtain ⟨k', v'⟩ := p
    by_cases h : k = k' <;> simp [setA, lookupA, h, ih]

theorem lookupA_setA_ne {κ β : Type} [DecidableEq κ]
    (xs : List (κ × β)) {k k' : κ} (v : β) (h : k' ≠ k) :
    lookupA (setA xs k v) k' = lookupA xs k' := by
  induction xs with
  | nil => simp [setA, lookupA, h]
  | cons p rest ih =>
    obtain ⟨k'', v''⟩ := p
    by_cases h1 : k = k''
    · subst h1
      simp [setA, lookupA, h]
    · by_cases h2 : k' = k'' <;> simp [setA, lookupA, h1, h2, ih]

theorem mem_setA {κ β : Type} [DecidableEq κ] {xs : List (κ × β)}
    {k : κ} {v : β} {p : κ × β} (h : p ∈ setA xs k v) :
    p = (k, v) ∨ p ∈ xs := by
  induction xs with
  | nil => simpa [setA] using h
  | cons q rest ih =>
    obtain ⟨k', v'⟩ := q
    by_cases h1 : k = k'
    · subst h1
      rw [show setA ((k, v') :: rest) k v = (k, v) :: rest from by
        simp [setA]] at h
      rcases List.mem_cons.mp h with h2 | h2
      · exact Or.inl h2
      · exact Or.inr (List.mem_cons_of_mem _ h2)
    · rw [show setA ((k', v') :: rest) k v = (k', v') :: setA rest k v from by
        simp [setA, h1]] at h
      rcases List.mem_cons.mp h with h2 | h2
      · exact Or.inr (h2 ▸ List.mem_cons_self _ _)
      · rcases ih h2 with h3 | h3
        · exact Or.inl h3
        · exact Or.inr (List.mem_cons_of_mem _ h3)

theorem keys_setA {κ β : Type} [DecidableEq κ] (xs : List (κ × β))
    (k : κ) (v : β) :
    (setA xs k v).map Prod.fst =
      if k ∈ xs.map Prod.fst then xs.map Prod.fst
      else xs.map Prod.fst ++ [k] := by
  induction xs with
  | nil => simp [setA]
  | cons p rest ih =>
    obtain ⟨k', v'⟩ := p
    by_cases h : k = k'
    · subst h
      simp [setA]
    · simp only [setA, if_neg h, List.map_cons, ih, List.mem_cons]
      by_cases h2 : k ∈ rest.map Prod.fst <;> simp [h2, h]

theorem lookupA_eraseP_self {κ β : Type} [DecidableEq κ]
    {xs : List (κ × β)} (l : κ) (hnd : NodupKeys xs) :
    lookupA (xs.eraseP (fun e => decide (e.1 = l))) l = none := by
  induction xs with
  | nil => simp [lookupA]
  | cons p rest ih =>
    obtain ⟨k, v⟩ := p
    unfold NodupKeys at hnd
    simp only [List.map_cons, List.nodup_cons] at hnd
    by_cases h : k = l
    · subst h
      simp only [List.eraseP_cons,
        show decide ((k, v).1 = k) = true by simp, cond_true]
      exact (lookupA_none_iff rest k).mpr hnd.1
    · simp only [List.eraseP_cons,
        show decide ((k, v).1 = l) = false by simpa using h, cond_false]
      simp only [lookupA, if_neg (fun hh : l = k => h hh.symm)]
      exact ih hnd.2

theorem lookupA_eraseP_ne {κ β : Type} [DecidableEq κ]
    (xs : List (κ × β)) {l l' : κ} (h : l' ≠ l) :
    lookupA (xs.eraseP (fun e => decide (e.1 = l))) l' = lookupA xs l' := by
  induction xs with
  | nil => simp
  | cons p rest ih =>
    obtain ⟨k, v⟩ := p
    by_cases hk : k = l
    · subst hk
      simp only [List.eraseP_cons,
        show decide ((k, v).1 = k) = true by simp, cond_true]
      simp [lookupA, h]
    · simp only [List.eraseP_cons,
        show decide ((k, v).1 = l) = false by simpa using hk, cond_false]
      by_cases h2 : l' = k <;> simp [lookupA, h2, ih]

/-!  Characterization of sameMachineEdges (the register's structural
equality test) for maps with unique keys: it holds exactly when the two
association lists denote the same finite map. -/

theorem keys_subset_of_sme {a b : List (L × Int)}
    (h : sameMachineEdges a b = true) :
    (a.map Prod.fst).toFinset ⊆ (b.map Prod.fst).toFinset := by
  unfold sameMachineEdges at h
  rw [Bool.and_eq_true, List.all_eq_true] at h
  intro k hk
  rw [List.mem_toFinset, List.mem_map] at hk
  obtain ⟨⟨k', v⟩, hm, hk1⟩ := hk
  subst hk1
  have := h.2 _ hm
  rw [decide_eq_true_eq] at this
  rw [List.mem_toFinset, List.mem_map]
  exact ⟨(k', v), mem_of_lookupA this, rfl⟩

theorem sme_length {a b : List (L × Int)}
    (h : sameMachineEdges a b = true) : a.length = b.length := by
  unfold sameMachineEdges at h
  rw [Bool.and_eq_true, beq_iff_eq] at h
  exact h.1

theorem sme_keys_eq {a b : List (L × Int)} (ha : NodupKeys a)
    (hb : NodupKeys b) (h : sameMachineEdges a b = true) :
    (a.map Prod.fst).toFinset = (b.map Prod.fst).toFinset := by
  refine Finset.eq_of_subset_of_card_le (keys_subset_of_sme h) ?_
  rw [List.toFinset_card_of_nodup ha, List.toFinset_card_of_nodup hb]
  simp [sme_length h]

theorem sme_lookup {a b : List (L × Int)} (ha : NodupKeys a)
    (hb : NodupKeys b) (h : sameMachineEdges a b = true) (k : L) :
    lookupA a k = lookupA b k := by
  cases hcase : lookupA a k with
  | some v =>
    have hm := mem_of_lookupA hcase
    unfold sameMachineEdges at h
    rw [Bool.and_eq_true, List.all_eq_true] at h
    have := h.2 _ hm
    rw [decide_eq_true_eq] at this
    rw [this]
  | none =>
    have hk : k ∉ a.map Prod.fst := (lookupA_none_iff a k).mp hcase
    have hk2 : k ∉ b.map Prod.fst := by
      intro hc
      apply hk
      have := sme_keys_eq ha hb h
      rw [← List.mem_toFinset, this, List.mem_toFinset]
      exact hc
    rw [(lookupA_none_iff b k).mpr hk2]

theorem sme_of_lookup {a b : List (L × Int)} (ha : NodupKeys a)
    (hb : NodupKeys b) (h : ∀ k, lookupA a k = lookupA b k) :
    sameMachineEdges a b = true := by
  have hkeys : (a.map Prod.fst).toFinset = (b.map Prod.fst).toFinset := by
    ext k
    rw [List.mem_toFinset, List.mem_toFinset]
    constructor
    · intro hk
      by_contra hc
      have := (lookupA_none_iff b k).mpr hc
      rw [← h k, lookupA_none_iff] at this
      exact this hk
    · intro hk
      by_contra hc
      have := (lookupA_none_iff a k).mpr hc
      rw [h k, lookupA_none_iff] at this
      exact this hk
  unfold sameMachineEdges
  rw [Bool.and_eq_true, List.all_eq_true]
  constructor
  · have := congrArg Finset.card hkeys
    rw [List.toFinset_card_of_nodup ha, List.toFinset_card_of_nodup hb]
      at this
    simpa using this
  · intro kv hm
    rw [decide_eq_true_eq, ← h kv.1]
    exact lookupA_of_mem ha (by rw [show (kv.1, kv.2) = kv from rfl]; exact hm)

theorem sme_refl {a : List (L × Int)} (ha : NodupKeys a) :
    sameMachineEdges a a = true :=
  sme_of_lookup ha ha (fun _ => rfl)

theorem sme_symm {a b : List (L × Int)} (ha : NodupKeys a)
    (hb : NodupKeys b) (h : sameMachineEdges a b = true) :
    sameMachineEdges b a = true :=
  sme_of_lookup hb ha (fun k => (sme_lookup ha hb h k).symm)

theorem sme_trans {a b c : List (L × Int)} (ha : NodupKeys a)
    (hb : NodupKeys b) (hc : NodupKeys c)
    (h1 : sameMachineEdges a b = true) (h2 : sameMachineEdges b c = true) :
    sameMachineEdges a c = true :=
  sme_of_lookup ha hc
    (fun k => (sme_lookup ha hb h1 k).trans (sme_lookup hb hc h2 k))

/-!  Claims C6, C7, C9, C10: per-state edge operations and the non-atomic
nil path of Register.Initialize. -/

theorem getSt_updH_self (g : Heap L A) (a : Nat) (s' : St L A) :
    getSt (updH g a s') a = s' := by
  simp [getSt, updH, lookupA_setA_self]

/-- C6: when label `l` of the state at address `a` is already mapped to
`d1`, AddEdge with `l` and any `d2` (including `d2 = d1`) fails with
EdgeAlreadyUsed and leaves the whole heap unchanged, so `l` still maps to
`d1` and no other edge of the state changed; when `l` is unmapped, AddEdge
succeeds, afterward `l` maps to the new destination, every other label is
unchanged, and every other state -- in particular the destination -- is
unmodified. -/
theorem c6_addEdge_spec (g : Heap L A) (a : Nat) (l : L) (d1 d2 : Nat) :
    (lookupA (getSt g a).edges l = some d1 →
      addEdgeH g a l d2 = (g, .error .edgeAlreadyUsed))
    ∧ (lookupA (getSt g a).edges l = none →
      (addEdgeH g a l d1).2 = .ok ()
      ∧ lookupA (getSt (addEdgeH g a l d1).1 a).edges l = some d1
      ∧ (∀ l', l' ≠ l → lookupA (getSt (addEdgeH g a l d1).1 a).edges l' =
          lookupA (getSt g a).edges l')
      ∧ (∀ b, b ≠ a → lookupA (addEdgeH g a l d1).1 b = lookupA g b)) := by
  constructor
  · intro h
    simp [addEdgeH, stAddEdge, h]
  · intro h
    have hred : addEdgeH g a l d1 =
        (updH g a { getSt g a with
          edges := (getSt g a).edges ++ [(l, d1)] }, .ok ()) := by
      simp [addEdgeH, stAddEdge, h]
    rw [hred]
    refine ⟨rfl, ?_, ?_, ?_⟩
    · rw [getSt_updH_self]
      simp [lookupA_append, h, lookupA]
    · intro l' hl'
      rw [getSt_updH_self]
      simp [lookupA_append, lookupA, hl']
    · intro b hb
      simp [updH, lookupA_setA_ne _ _ hb]

/-- Sample two-state heap used by witnesses: state 0 has the single edge
labeled 5 to state 1. -/
def exHeap1 : Heap Nat Nat :=
  [(0, { id := 0, terminal := false, edges := [(5, 1)],
         annotations := some [] }),
   (1, { id := 1, terminal := false, edges := [], annotations := some [] })]

theorem c6_addEdge_witness :
    addEdgeH exHeap1 0 5 2 = (exHeap1, .error .edgeAlreadyUsed)
    ∧ (addEdgeH exHeap1 0 7 1).2 = .ok ()
    ∧ lookupA (getSt (addEdgeH exHeap1 0 7 1).1 0).edges 7 = some 1
    ∧ lookupA (addEdgeH exHeap1 0 7 1).1 1 = lookupA exHeap1 1 :=
  ⟨(c6_addEdge_spec exHeap1 0 5 1 2).1 (by decide),
   ((c6_addEdge_spec exHeap1 0 7 1 1).2 (by decide)).1,
   ((c6_addEdge_spec exHeap1 0 7 1 1).2 (by decide)).2.1,
   ((c6_addEdge_spec exHeap1 0 7 1 1).2 (by decide)).2.2.2 1 (by decide)⟩

/-- C7: RemoveEdge fails with EdgeNotPresent and leaves the heap -- hence
the state's edges -- unchanged when the label is unmapped or mapped to a
destination other than the given one; when the label is mapped to exactly
the given destination it succeeds, unmaps that one label, leaves every
other label's binding unchanged, and leaves every other state unchanged. -/
theorem c7_removeEdge_spec (g : Heap L A) (a : Nat) (l : L) (d : Nat) :
    (lookupA (getSt g a).edges l = none →
      removeEdgeH g a l d = (g, .error .edgeNotPresent))
    ∧ (∀ d', lookupA (getSt g a).edges l = some d' → d' ≠ d →
      removeEdgeH g a l d = (g, .error .edgeNotPresent))
    ∧ (lookupA (getSt g a).edges l = some d → NodupKeys (getSt g a).edges →
      (removeEdgeH g a l d).2 = .ok ()
      ∧ lookupA (getSt (removeEdgeH g a l d).1 a).edges l = none
      ∧ (∀ l', l' ≠ l → lookupA (getSt (removeEdgeH g a l d).1 a).edges l' =
          lookupA (getSt g a).edges l')
      ∧ (∀ b, b ≠ a → lookupA (removeEdgeH g a l d).1 b = lookupA g b)) := by
  refine ⟨?_, ?_, ?_⟩
  · intro h
    simp [removeEdgeH, stRemoveEdge, h]
  · intro d' h hne
    simp [removeEdgeH, stRemoveEdge, h, hne]
  · intro h hnd
    have hred : removeEdgeH g a l d =
        (updH g a { getSt g a with
          edges := (getSt g a).edges.eraseP (fun e => decide (e.1 = l)) },
         .ok ()) := by
      simp [removeEdgeH, stRemoveEdge, h]
    rw [hred]
    refine ⟨rfl, ?_, ?_, ?_⟩
    · rw [getSt_updH_self]
      exact lookupA_eraseP_self l hnd
    · intro l' hl'
      rw [getSt_updH_self]
      exact lookupA_eraseP_ne _ hl'
    · intro b hb
      simp [updH, lookupA_setA_ne _ _ hb]

theorem c7_removeEdge_witness :
    removeEdgeH exHeap1 0 7 1 = (exHeap1, .error .edgeNotPresent)
    ∧ removeEdgeH exHeap1 0 5 0 = (exHeap1, .error .edgeNotPresent)
    ∧ (removeEdgeH exHeap1 0 5 1).2 = .ok ()
    ∧ lookupA (getSt (removeEdgeH exHeap1 0 5 1).1 0).edges 5 = none :=
  ⟨(c7_removeEdge_spec exHeap1 0 7 1).1 (by decide),
   (c7_removeEdge_spec exHeap1 0 5 0).2.1 1 (by decide) (by decide),
   ((c7_removeEdge_spec exHeap1 0 5 1).2.2 (by decide) (by decide)).1,
   ((c7_removeEdge_spec exHeap1 0 5 1).2.2 (by decide) (by decide)).2.1⟩

/-- C9: FollowAllEdges lists each distinct destination of the edge map
exactly once (its length is the number of distinct destinations, it has no
duplicates, and its members are exactly the destinations), and FollowEdge
returns the one-element list with the label's destination when the label
is mapped and the empty list otherwise. -/
theorem c9_follow_spec (s : St L A) :
    (followAllEdges s).length = (s.edges.map Prod.snd).toFinset.card
    ∧ (followAllEdges s).Nodup
    ∧ (∀ d, d ∈ followAllEdges s ↔ ∃ l, (l, d) ∈ s.edges)
    ∧ (∀ l d, lookupA s.edges l = some d → followEdge s l = [d])
    ∧ (∀ l, lookupA s.edges l = none → followEdge s l = []) := by
  refine ⟨?_, ?_, ?_, ?_, ?_⟩
  · rw [followAllEdges, List.card_toFinset]
  · exact List.nodup_dedup _
  · intro d
    rw [followAllEdges, List.mem_dedup, List.mem_map]
    constructor
    · rintro ⟨⟨l, d'⟩, hm, rfl⟩
      exact ⟨l, hm⟩
    · rintro ⟨l, hm⟩
      exact ⟨(l, d), hm, rfl⟩
  · intro l d h
    simp [followEdge, h]
  · intro l h
    simp [followEdge, h]

theorem c9_follow_witness :
    followEdge (getSt exHeap1 0) 5 = [1]
    ∧ followEdge (getSt exHeap1 0) 7 = []
    ∧ (followAllEdges (getSt exHeap1 0)).length =
        ((getSt exHeap1 0).edges.map Prod.snd).toFinset.card :=
  ⟨(c9_follow_spec (getSt exHeap1 0)).2.2.2.1 5 1 (by decide),
   (c9_follow_spec (getSt exHeap1 0)).2.2.2.2 7 (by decide),
   (c9_follow_spec (getSt exHeap1 0)).1⟩

/-- C10: Register.Initialize with a nil start state clears the
equivalence-class map (Reset runs before the nil check) and only then
fails with RegisterNilState, so representatives registered by earlier
calls are lost although the call fails. -/
theorem c10_init_nil_spec (hashOf : List (L × Int) → Nat) (g : Heap L A)
    (r : Reg) :
    initReg hashOf g r none = (resetReg, .error .registerNilState)
    ∧ (initReg hashOf g r none).1.ecMap = [] :=
  ⟨rfl, rfl⟩

/-!  Claim C8: the factory's id lifecycle. -/

/-- Ids handed out by a call sequence are strictly increasing, pairwise
distinct, and bounded below by the starting counter. -/
theorem runCalls_ids (f : Factory) (calls : List (FCall L A)) :
    List.Chain' (· < ·) (runCalls f calls).2
    ∧ (runCalls f calls).2.Nodup
    ∧ ∀ i ∈ (runCalls f calls).2, f.idCounter ≤ i := by
  induction calls generalizing f with
  | nil => simp [runCalls]
  | cons c cs ih =>
    cases c with
    | newState =>
      by_cases h : f.defaultStateType = lazyDfaAnnotatedType
      · obtain ⟨hch, hnd, hlb⟩ := ih { f with idCounter := f.idCounter + 1 }
        simp only [runCalls, newStateF, if_pos h]
        refine ⟨?_, ?_, ?_⟩
        · refine List.chain'_cons'.mpr ⟨?_, hch⟩
          intro y hy
          have hm := List.mem_of_mem_head? hy
          have := hlb y hm
          simp only [newAnnotatedSt] at *
          omega
        · refine List.nodup_cons.mpr ⟨?_, hnd⟩
          intro hmem
          have := hlb _ hmem
          simp only [newAnnotatedSt] at this
          omega
        · intro i hi
          rcases List.mem_cons.mp hi with h1 | h1
          · simp only [newAnnotatedSt] at h1
            omega
          · have h2 : f.idCounter + 1 ≤ i := hlb i h1
            omega
      · simp only [runCalls, newStateF, if_neg h]
        exact ih f
    | cloneState orig =>
      obtain ⟨hch, hnd, hlb⟩ := ih { f with idCounter := f.idCounter + 1 }
      simp only [runCalls, cloneStateF]
      refine ⟨?_, ?_, ?_⟩
      · refine List.chain'_cons'.mpr ⟨?_, hch⟩
        intro y hy
        have := hlb y (List.mem_of_mem_head? hy)
        simp only [cloneAnnotated] at *
        omega
      · refine List.nodup_cons.mpr ⟨?_, hnd⟩
        intro hmem
        have := hlb _ hmem
        simp only [cloneAnnotated] at this
        omega
      · intro i hi
        rcases List.mem_cons.mp hi with h1 | h1
        · rw [h1]
        · have h2 : f.idCounter + 1 ≤ i := hlb i h1
          omega

/-- C8: every successful NewState or CloneState call hands out the
factory's current counter as the new state's id and increments the counter
by one (a failing NewState leaves the factory untouched); over any call
sequence the handed-out ids are strictly increasing and never reused; a
fresh factory answering three NewState calls yields ids 0, 1, 2. -/
theorem c8_factory_spec (f f' : Factory) (s o : St L A)
    (calls : List (FCall L A)) :
    (newStateF (L := L) (A := A) f = (f', .ok s) →
      s.id = f.idCounter ∧ f'.idCounter = f.idCounter + 1)
    ∧ (newStateF (L := L) (A := A) f = (f', .error .invalidStateType) →
      f' = f)
    ∧ (cloneStateF f o = (f', .ok s) →
      s.id = f.idCounter ∧ f'.idCounter = f.idCounter + 1)
    ∧ List.Chain' (· < ·) (runCalls f calls).2
    ∧ (runCalls f calls).2.Nodup
    ∧ runCalls (L := L) (A := A)
        { idCounter := 0, defaultStateType := lazyDfaAnnotatedType }
        [.newState, .newState, .newState] =
      ({ idCounter := 3, defaultStateType := lazyDfaAnnotatedType },
       [0, 1, 2]) := by
  refine ⟨?_, ?_, ?_, (runCalls_ids f calls).1, (runCalls_ids f calls).2.1,
    rfl⟩
  · intro h
    by_cases hd : f.defaultStateType = lazyDfaAnnotatedType
    · simp only [newStateF, if_pos hd] at h
      obtain ⟨h1, h2⟩ := Prod.mk.injEq .. ▸ h
      refine ⟨?_, ?_⟩
      · have := Except.ok.inj h2
        rw [← this, newAnnotatedSt]
      · rw [← h1]
    · simp [newStateF, if_neg hd] at h
  · intro h
    by_cases hd : f.defaultStateType = lazyDfaAnnotatedType
    · simp [newStateF, if_pos hd] at h
    · simp only [newStateF, if_neg hd] at h
      exact (Prod.mk.injEq .. ▸ h).1.symm
  · intro h
    simp only [cloneStateF] at h
    obtain ⟨h1, h2⟩ := Prod.mk.injEq .. ▸ h
    refine ⟨?_, ?_⟩
    · have := Except.ok.inj h2
      rw [← this]
    · rw [← h1]

/-!  Claims C1 and C3: the register's equivalence classes. -/

/-- Heap well-formedness: every state's edge map has unique keys (a Go map
cannot hold duplicate keys, so every heap arising from the Go API
satisfies this). -/
def EdgesWF (g : Heap L A) : Prop :=
  ∀ p ∈ g, NodupKeys (Prod.snd p).edges

/-- Under EdgesWF every MachineEdges snapshot has unique keys. -/
theorem nodup_me {g : Heap L A} (hwf : EdgesWF g) (a : Nat) :
    NodupKeys (machineEdges g a) := by
  have hkeys : (machineEdges g a).map Prod.fst =
      (getSt g a).edges.map Prod.fst := by
    unfold machineEdges
    rw [List.map_map]
    rfl
  unfold NodupKeys
  rw [hkeys]
  unfold getSt
  cases hcase : lookupA g a with
  | none => simp [defaultSt]
  | some st =>
    simpa using hwf (a, st) (mem_of_lookupA hcase)

/-- The invariant of claim C3: within any one bucket of the register, no
two registered states have equal MachineEdges. -/
def BucketsDistinct (g : Heap L A) (r : Reg) : Prop :=
  ∀ hb ∈ r.ecMap, ∀ a ∈ Prod.snd hb, ∀ b ∈ Prod.snd hb, a ≠ b →
    sameMachineEdges (machineEdges g a) (machineEdges g b) = false

instance (g : Heap L A) : Decidable (EdgesWF g) := by
  unfold EdgesWF NodupKeys
  infer_instance

instance (g : Heap L A) (r : Reg) : Decidable (BucketsDistinct g r) := by
  unfold BucketsDistinct
  infer_instance

theorem getEC_preserves_bd (hashOf : List (L × Int) → Nat) (g : Heap L A)
    (hwf : EdgesWF g) (r : Reg) (hbd : BucketsDistinct g r)
    (q : Option Nat) :
    BucketsDistinct g (getEquivalenceClass hashOf g r q).1 := by
  cases q with
  | none => exact hbd
  | some a =>
    simp only [getEquivalenceClass]
    cases hbk : lookupA r.ecMap (hashOf (machineEdges g a)) with
    | none =>
      intro hb hmem x hx y hy hxy
      replace hmem : hb ∈ setA r.ecMap (hashOf (machineEdges g a)) [a] :=
        hmem
      rcases mem_setA hmem with h1 | h1
      · subst h1
        simp only [List.mem_singleton] at hx hy
        exact absurd (hx.trans hy.symm) hxy
      · exact hbd hb h1 x hx y hy hxy
    | some b =>
      change BucketsDistinct g
        (match b.find? (fun s =>
            sameMachineEdges (machineEdges g a) (machineEdges g s)) with
          | some s => (r, Except.ok s)
          | none =>
            ({ ecMap := setA r.ecMap (hashOf (machineEdges g a))
                (b ++ [a]) }, Except.ok a)).1
      cases hfind : b.find? (fun s =>
          sameMachineEdges (machineEdges g a) (machineEdges g s)) with
      | some s => exact hbd
      | none =>
        have hall := List.find?_eq_none.mp hfind
        intro hb hmem x hx y hy hxy
        replace hmem :
            hb ∈ setA r.ecMap (hashOf (machineEdges g a)) (b ++ [a]) :=
          hmem
        rcases mem_setA hmem with h1 | h1
        · subst h1
          simp only [List.mem_append, List.mem_singleton] at hx hy
          rcases hx with hx | hx <;> rcases hy with hy | hy
          · exact hbd (hashOf (machineEdges g a), b) (mem_of_lookupA hbk)
              x hx y hy hxy
          · rw [hy]
            have h1 := hall x hx
            by_contra hc
            rw [Bool.not_eq_false] at hc
            exact h1 (sme_symm (nodup_me hwf x) (nodup_me hwf a) hc)
          · rw [hx]
            exact Bool.eq_false_iff.mpr (hall y hy)
          · exact absurd (hx.trans hy.symm) hxy
        · exact hbd hb h1 x hx y hy hxy

theorem initLoop_preserves_bd (hashOf : List (L × Int) → Nat)
    (g : Heap L A) (hwf : EdgesWF g) :
    ∀ (fuel : Nat) (r : Reg) (seen : Finset Int) (stack : List Nat),
      BucketsDistinct g r →
      BucketsDistinct g (initLoop hashOf g fuel r seen stack).1 := by
  intro fuel
  induction fuel with
  | zero => intro r seen stack hbd; exact hbd
  | succ fuel ih =>
    intro r seen stack hbd
    cases stack with
    | nil => exact hbd
    | cons curr rest =>
      have hbd' := getEC_preserves_bd hashOf g hwf r hbd (some curr)
      unfold initLoop
      cases hq : getEquivalenceClass hashOf g r (some curr) with
      | mk r' res =>
        rw [hq] at hbd'
        cases res with
        | error e => exact hbd'
        | ok ref =>
          simp only
          by_cases hid : getId g ref = getId g curr
          · rw [if_pos hid]
            exact ih r' _ _ hbd'
          · rw [if_neg hid]
            exact hbd'

/-- One register call of a session: GetEquivalenceClass, Initialize, or
Reset (the graph is fixed: no external mutation of registered states). -/
inductive ROp : Type
  | getEC (q : Option Nat)
  | initOp (s : Option Nat)
  | reset
  deriving DecidableEq, Repr

/-- Run a sequence of register calls, keeping the register state. -/
def runROps (hashOf : List (L × Int) → Nat) (g : Heap L A) (r : Reg) :
    List ROp → Reg
  | [] => r
  | op :: ops =>
    match op with
    | .getEC q => runROps hashOf g (getEquivalenceClass hashOf g r q).1 ops
    | .initOp s => runROps hashOf g (initReg hashOf g r s).1 ops
    | .reset => runROps hashOf g resetReg ops

theorem runROps_preserves_bd (hashOf : List (L × Int) → Nat)
    (g : Heap L A) (hwf : EdgesWF g) (ops : List ROp) :
    ∀ r : Reg, BucketsDistinct g r →
      BucketsDistinct g (runROps hashOf g r ops) := by
  induction ops with
  | nil => intro r hbd; exact hbd
  | cons op ops ih =>
    intro r hbd
    cases op with
    | getEC q => exact ih _ (getEC_preserves_bd hashOf g hwf r hbd q)
    | initOp s =>
      refine ih _ ?_
      cases s with
      | none =>
        intro hb hmem
        simp [initReg, resetReg] at hmem
      | some a =>
        refine initLoop_preserves_bd hashOf g hwf _ _ _ _ ?_
        intro hb hmem
        simp [resetReg] at hmem
    | reset =>
      refine ih _ ?_
      intro hb hmem
      simp [resetReg] at hmem

/-- C3: starting from the freshly constructed (empty) register, after any
sequence of GetEquivalenceClass, Initialize and Reset calls against a
fixed well-formed heap (no external mutation of registered states), no
bucket of the equivalence-class map holds two states with equal
MachineEdges maps. -/
theorem c3_bucket_invariant (hashOf : List (L × Int) → Nat) (g : Heap L A)
    (hwf : EdgesWF g) (ops : List ROp) :
    BucketsDistinct g (runROps hashOf g resetReg ops) := by
  refine runROps_preserves_bd hashOf g hwf ops resetReg ?_
  intro hb hmem
  simp [resetReg] at hmem

theorem c3_bucket_witness :
    BucketsDistinct exHeap1
      (runROps (fun _ => 42) exHeap1 resetReg
        [.getEC (some 0), .getEC (some 1), .getEC (some 0),
         .initOp (some 1), .reset, .getEC (some 1)]) :=
  c3_bucket_invariant (fun _ => 42) exHeap1 (by decide) _

/-- C1: GetEquivalenceClass on a nil query fails with RegisterNilState and
changes nothing.  On a non-nil query: when the bucket for the query's hash
holds a member with structurally equal MachineEdges (full equality, unique
by the bucket invariant), that already-registered member is returned and
the register is unchanged; when no member matches -- even if the bucket
is nonempty because other states share the hash -- the query is appended
to the bucket (created when absent), every previously registered
representative remains, and the query itself is returned, so states with
different MachineEdges but one hash coexist as separate representatives. -/
theorem c1_getEC_spec (hashOf : List (L × Int) → Nat) (g : Heap L A)
    (r : Reg) (a : Nat) (hwf : EdgesWF g) (hbd : BucketsDistinct g r) :
    (getEquivalenceClass hashOf g r none = (r, .error .registerNilState))
    ∧ (∀ s, s ∈ (lookupA r.ecMap (hashOf (machineEdges g a))).getD [] →
        sameMachineEdges (machineEdges g a) (machineEdges g s) = true →
        getEquivalenceClass hashOf g r (some a) = (r, .ok s))
    ∧ ((∀ s ∈ (lookupA r.ecMap (hashOf (machineEdges g a))).getD [],
          sameMachineEdges (machineEdges g a) (machineEdges g s) = false) →
        (getEquivalenceClass hashOf g r (some a)).2 = .ok a
        ∧ lookupA (getEquivalenceClass hashOf g r (some a)).1.ecMap
            (hashOf (machineEdges g a)) =
          some ((lookupA r.ecMap (hashOf (machineEdges g a))).getD []
            ++ [a])
        ∧ ∀ h', h' ≠ hashOf (machineEdges g a) →
            lookupA (getEquivalenceClass hashOf g r (some a)).1.ecMap h' =
            lookupA r.ecMap h') := by
  refine ⟨rfl, ?_, ?_⟩
  · intro s hs hsme
    cases hbk : lookupA r.ecMap (hashOf (machineEdges g a)) with
    | none => simp [hbk] at hs
    | some b =>
      rw [hbk] at hs
      simp only [Option.getD_some] at hs
      cases hfind : b.find? (fun s =>
          sameMachineEdges (machineEdges g a) (machineEdges g s)) with
      | none =>
        have := List.find?_eq_none.mp hfind s hs
        simp [hsme] at this
      | some x =>
        have hxb := List.mem_of_find?_eq_some hfind
        have hxp := List.find?_some hfind
        have hxs : x = s := by
          by_contra hne
          have hxa : sameMachineEdges (machineEdges g a)
              (machineEdges g x) = true := hxp
          have hxsme : sameMachineEdges (machineEdges g x)
              (machineEdges g s) = true :=
            sme_trans (nodup_me hwf x) (nodup_me hwf a) (nodup_me hwf s)
              (sme_symm (nodup_me hwf a) (nodup_me hwf x) hxa) hsme
          have := hbd (hashOf (machineEdges g a), b) (mem_of_lookupA hbk)
            x hxb s hs hne
          rw [hxsme] at this
          cases this
        subst hxs
        unfold getEquivalenceClass
        simp only [hbk, hfind]
  · intro hall
    cases hbk : lookupA r.ecMap (hashOf (machineEdges g a)) with
    | none =>
      have hred : getEquivalenceClass hashOf g r (some a) =
          ({ ecMap := setA r.ecMap (hashOf (machineEdges g a)) [a] },
           .ok a) := by
        unfold getEquivalenceClass
        simp only [hbk]
      rw [hred]
      refine ⟨rfl, ?_, ?_⟩
      · rw [lookupA_setA_self]
        rfl
      · intro h' hne
        exact lookupA_setA_ne _ _ hne
    | some b =>
      rw [hbk] at hall
      simp only [Option.getD_some] at hall
      have hfind : b.find? (fun s =>
          sameMachineEdges (machineEdges g a) (machineEdges g s)) = none :=
        List.find?_eq_none.mpr (fun x hx => by simp [hall x hx])
      have hred : getEquivalenceClass hashOf g r (some a) =
          ({ ecMap := setA r.ecMap (hashOf (machineEdges g a))
              (b ++ [a]) }, .ok a) := by
        unfold getEquivalenceClass
        simp only [hbk, hfind]
      rw [hred]
      refine ⟨rfl, ?_, ?_⟩
      · rw [lookupA_setA_self]
        rfl
      · intro h' hne
        exact lookupA_setA_ne _ _ hne

/-- A register holding the single bucket 42 -> [0]. -/
def c1r1 : Reg := { ecMap := [(42, [0])] }

/-- A register holding the single bucket 42 -> [0, 1] (the two states have
different MachineEdges but were forced into one bucket by the constant
hash). -/
def c1r2 : Reg := { ecMap := [(42, [0, 1])] }

theorem c1_getEC_witness :
    getEquivalenceClass (fun _ => 42) exHeap1 resetReg none =
      (resetReg, .error .registerNilState)
    ∧ (getEquivalenceClass (fun _ => 42) exHeap1 c1r1 (some 1)).2 = .ok 1
    ∧ lookupA (getEquivalenceClass (fun _ => 42) exHeap1 c1r1
        (some 1)).1.ecMap 42 = some [0, 1]
    ∧ getEquivalenceClass (fun _ => 42) exHeap1 c1r2 (some 0) =
        (c1r2, .ok 0) :=
  ⟨(c1_getEC_spec (fun _ => 42) exHeap1 resetReg 0 (by decide)
      (by decide)).1,
   ((c1_getEC_spec (fun _ => 42) exHeap1 c1r1 1 (by decide)
      (by decide)).2.2 (by decide)).1,
   ((c1_getEC_spec (fun _ => 42) exHeap1 c1r1 1 (by decide)
      (by decide)).2.2 (by decide)).2.1,
   (c1_getEC_spec (fun _ => 42) exHeap1 c1r2 0 (by decide)
      (by decide)).2.1 0 (by decide) (by decide)⟩

/-!  Claim C5: Clone. -/

theorem le_foldr_max (l : List Nat) :
    ∀ x ∈ l, x ≤ l.foldr (fun x m => max x m) 0 := by
  induction l with
  | nil => simp
  | cons a t ih =>
    intro x hx
    rcases List.mem_cons.mp hx with h | h
    · subst h
      simp [List.foldr_cons]
    · exact le_trans (ih x h) (by simp [List.foldr_cons])

theorem freshAddr_not_mem (g : Heap L A) :
    freshAddr g ∉ g.map Prod.fst := by
  intro hc
  have := le_foldr_max (g.map Prod.fst) _ hc
  unfold freshAddr at this
  omega

theorem getSt_append_fresh (g : Heap L A) (s : St L A) :
    getSt (g ++ [(freshAddr g, s)]) (freshAddr g) = s := by
  unfold getSt
  rw [lookupA_append,
    (lookupA_none_iff g (freshAddr g)).mpr (freshAddr_not_mem g)]
  simp [lookupA]

theorem lookupA_append_fresh_ne (g : Heap L A) (s : St L A) (b : Nat)
    (hb : b ≠ freshAddr g) :
    lookupA (g ++ [(freshAddr g, s)]) b = lookupA g b := by
  rw [lookupA_append]
  cases hcase : lookupA g b with
  | some v => rfl
  | none => simp [lookupA, hb]

/-- C5 (amended): cloning the state at address `a` allocates a fresh state
object (a new address, distinct from every existing state).  For both
variants the clone's edge map holds exactly the original's bindings with
the destination addresses shared, so clone and original have equal
MachineEdges at clone time and the original's MachineEdges are untouched.
The annotated variant's Clone copies the annotation set; the stateful
variant's Clone (state.go) leaves the clone's annotation map nil, so its
annotation set reads as empty rather than equal (see the counterexample).
Containers are not aliased: replacing the state stored at either address
(the effect of every AddEdge/RemoveEdge/AddAnnotation/RemoveAnnotation/
SetId) never changes the state stored at the other.  With any canonical
encoder and any hash capability the two hashes are equal at clone time and
remain equal as long as the two MachineEdges maps denote the same finite
map. -/
theorem c5_clone_spec (g : Heap L A) (a : Nat)
    (ha : a ∈ g.map Prod.fst)
    (hdest : ∀ e ∈ (getSt g a).edges, Prod.snd e ∈ g.map Prod.fst) :
    (cloneAnnotatedH g a).2 ∉ g.map Prod.fst
    ∧ (cloneAnnotatedH g a).2 ≠ a
    ∧ (getSt (cloneAnnotatedH g a).1 (cloneAnnotatedH g a).2).edges =
        (getSt g a).edges
    ∧ machineEdges (cloneAnnotatedH g a).1 (cloneAnnotatedH g a).2 =
        machineEdges (cloneAnnotatedH g a).1 a
    ∧ machineEdges (cloneAnnotatedH g a).1 a = machineEdges g a
    ∧ getAnns (getSt (cloneAnnotatedH g a).1 (cloneAnnotatedH g a).2) =
        getAnns (getSt g a)
    ∧ (getSt (cloneStatefulH g a).1 (cloneStatefulH g a).2).annotations =
        none
    ∧ (getSt (cloneStatefulH g a).1 (cloneStatefulH g a).2).edges =
        (getSt g a).edges
    ∧ (∀ s' : St L A,
        lookupA (updH (cloneAnnotatedH g a).1 (cloneAnnotatedH g a).2 s')
          a = lookupA (cloneAnnotatedH g a).1 a)
    ∧ (∀ s' : St L A,
        lookupA (updH (cloneAnnotatedH g a).1 a s') (cloneAnnotatedH g a).2
          = lookupA (cloneAnnotatedH g a).1 (cloneAnnotatedH g a).2)
    ∧ (∀ (enc : List (L × Int) → List Nat) (hf : List Nat → Nat),
        (∀ m m', (∀ k, lookupA m k = lookupA m' k) → enc m = enc m') →
        isoHash enc hf (cloneAnnotatedH g a).1 (cloneAnnotatedH g a).2 =
          isoHash enc hf (cloneAnnotatedH g a).1 a) := by
  have hfresh := freshAddr_not_mem g
  have hne : freshAddr g ≠ a := fun hc => hfresh (hc ▸ ha)
  have hgetc :
      getSt (cloneAnnotatedH g a).1 (cloneAnnotatedH g a).2 =
        cloneAnnotated (getSt g a) :=
    getSt_append_fresh g (cloneAnnotated (getSt g a))
  have hgeta : getSt (cloneAnnotatedH g a).1 a = getSt g a := by
    unfold getSt
    rw [show (cloneAnnotatedH g a).1 =
        g ++ [(freshAddr g, cloneAnnotated (getSt g a))] from rfl,
      lookupA_append_fresh_ne g _ a (fun hc => hne hc.symm)]
  have hmec :
      machineEdges (cloneAnnotatedH g a).1 (cloneAnnotatedH g a).2 =
        machineEdges (cloneAnnotatedH g a).1 a := by
    unfold machineEdges
    rw [hgetc, hgeta]
    rfl
  have hmea : machineEdges (cloneAnnotatedH g a).1 a = machineEdges g a := by
    unfold machineEdges
    rw [hgeta]
    refine List.map_congr_left ?_
    intro e he
    have hd := hdest e he
    have hdne : Prod.snd e ≠ freshAddr g := fun hc => hfresh (hc ▸ hd)
    unfold getId getSt
    rw [show (cloneAnnotatedH g a).1 =
        g ++ [(freshAddr g, cloneAnnotated (getSt g a))] from rfl,
      lookupA_append_fresh_ne g _ _ hdne]
  refine ⟨hfresh, hne, ?_, hmec, hmea, ?_, ?_, ?_, ?_, ?_, ?_⟩
  · rw [hgetc]
    rfl
  · rw [hgetc]
    rfl
  · have hgetcs :
        getSt (cloneStatefulH g a).1 (cloneStatefulH g a).2 =
          cloneStateful (getSt g a) :=
      getSt_append_fresh g (cloneStateful (getSt g a))
    rw [hgetcs]
    rfl
  · have hgetcs :
        getSt (cloneStatefulH g a).1 (cloneStatefulH g a).2 =
          cloneStateful (getSt g a) :=
      getSt_append_fresh g (cloneStateful (getSt g a))
    rw [hgetcs]
    rfl
  · intro s'
    exact lookupA_setA_ne _ _ (fun hc => hne hc.symm)
  · intro s'
    exact lookupA_setA_ne _ _ hne
  · intro enc hf hcanon
    unfold isoHash
    rw [hmec]

/-- Heap for the C5 counterexample and witness: one stateful-variant state
carrying annotation 9 and a self-edge. -/
def c5Heap : Heap Nat Nat :=
  [(0, { id := 0, terminal := false, edges := [(5, 0)],
         annotations := some [9] })]

/-- C5 counterexample: LazyDfaStatefulState.Clone (state.go) does not copy
the Annotations map (the clone's map is left nil), so the clone's
annotation set -- here empty -- differs from the original's at clone
time, refuting the claim that every variant's clone has an equal
annotation set. -/
theorem c5_clone_cex :
    getAnns (getSt (cloneStatefulH c5Heap 0).1 (cloneStatefulH c5Heap 0).2)
      ≠ getAnns (getSt (cloneStatefulH c5Heap 0).1 0) := by
  decide

theorem c5_clone_witness :
    (getSt (cloneAnnotatedH c5Heap 0).1 (cloneAnnotatedH c5Heap 0).2).edges
      = (getSt c5Heap 0).edges
    ∧ getAnns (getSt (cloneAnnotatedH c5Heap 0).1
        (cloneAnnotatedH c5Heap 0).2) = getAnns (getSt c5Heap 0)
    ∧ machineEdges (cloneAnnotatedH c5Heap 0).1 (cloneAnnotatedH c5Heap 0).2
      = machineEdges (cloneAnnotatedH c5Heap 0).1 0
    ∧ (∀ s' : St Nat Nat,
        lookupA (updH (cloneAnnotatedH c5Heap 0).1
          (cloneAnnotatedH c5Heap 0).2 s') 0 =
        lookupA (cloneAnnotatedH c5Heap 0).1 0) :=
  ⟨(c5_clone_spec c5Heap 0 (by decide) (by decide)).2.2.1,
   (c5_clone_spec c5Heap 0 (by decide) (by decide)).2.2.2.2.2.1,
   (c5_clone_spec c5Heap 0 (by decide) (by decide)).2.2.2.1,
   (c5_clone_spec c5Heap 0 (by decide) (by decide)).2.2.2.2.2.2.2.2.1⟩

/-!  Claim C4: IsomorphismHash.  The injected encoder capability promises
canonical serialization: identical map contents always produce identical
bytes.  `encCanon` below is one concrete such encoder (it walks the keys
in increasing order), used by the counterexample; the claim theorem is
stated for every canonical encoder. -/

/-- Injective encoding of a StateId into a byte-like natural. -/
def encInt (v : Int) : Nat :=
  if 0 ≤ v then 2 * v.toNat else 2 * (-v).toNat + 1

/-- One past the largest key of a Nat-labeled machine-edge map. -/
def keyBound (m : List (Nat × Int)) : Nat :=
  (m.map Prod.fst).foldr max 0 + 1

/-- Emit the bindings below `bound` of the map denoted by `f`, in
increasing key order. -/
def encAux (bound : Nat) (f : Nat → Option Int) : List Nat :=
  (List.range bound).flatMap (fun k =>
    match f k with
    | none => []
    | some v => [k + 1, encInt v + 1])

/-- A concrete canonical encoder for Nat-labeled machine-edge maps: the
output depends only on the finite map the list denotes, never on the
order of its entries. -/
def encCanon (m : List (Nat × Int)) : List Nat :=
  encAux (keyBound m) (fun k => lookupA m k)

theorem foldr_max_eq_sup (l : List Nat) :
    l.foldr max 0 = l.toFinset.sup id := by
  induction l with
  | nil => simp
  | cons a t ih =>
    simp only [List.foldr_cons, List.toFinset_cons, Finset.sup_insert, ih]
    rfl

theorem keyBound_eq_of_lookup {m m' : List (Nat × Int)}
    (h : ∀ k, lookupA m k = lookupA m' k) : keyBound m = keyBound m' := by
  unfold keyBound
  have hkeys : (m.map Prod.fst).toFinset = (m'.map Prod.fst).toFinset := by
    ext k
    rw [List.mem_toFinset, List.mem_toFinset]
    constructor
    · intro hk
      by_contra hc
      have := (lookupA_none_iff m' k).mpr hc
      rw [← h k, lookupA_none_iff] at this
      exact this hk
    · intro hk
      by_contra hc
      have := (lookupA_none_iff m k).mpr hc
      rw [h k, lookupA_none_iff] at this
      exact this hk
  rw [foldr_max_eq_sup, foldr_max_eq_sup, hkeys]

/-- encCanon really is canonical: it is a function of the denoted map. -/
theorem encCanon_canonical {m m' : List (Nat × Int)}
    (h : ∀ k, lookupA m k = lookupA m' k) : encCanon m = encCanon m' := by
  unfold encCanon
  rw [keyBound_eq_of_lookup h]
  congr 1
  funext k
  exact h k

/-- Permuting an edge list with unique keys does not change lookups. -/
theorem lookupA_of_perm {κ β : Type} [DecidableEq κ]
    {xs ys : List (κ × β)} (hperm : xs.Perm ys) (hnd : NodupKeys xs)
    (k : κ) : lookupA xs k = lookupA ys k := by
  have hndy : NodupKeys ys := (hperm.map Prod.fst).nodup_iff.mp hnd
  cases hcase : lookupA xs k with
  | some v =>
    exact (lookupA_of_mem hndy (hperm.mem_iff.mp (mem_of_lookupA hcase))).symm
  | none =>
    have hk := (lookupA_none_iff xs k).mp hcase
    refine ((lookupA_none_iff ys k).mpr ?_).symm
    intro hc
    exact hk ((hperm.map Prod.fst).mem_iff.mpr hc)

/-- C4 (amended): with a canonical encoder and any hash capability, the
IsomorphismHash of a state is determined by the finite map its
MachineEdges denotes; in particular two states whose edge maps are
permutations of each other (equal-content edges inserted in any order,
resolving to the same destination ids) hash identically.  The original
claim's converse direction -- the hash changes whenever MachineEdges
changes -- is refuted by the counterexample: a hash capability may collide on
distinct maps. -/
theorem c4_isoHash_spec (enc : List (L × Int) → List Nat)
    (hf : List Nat → Nat) (g g' : Heap L A) (a a' : Nat)
    (hcanon : ∀ m m', (∀ k, lookupA m k = lookupA m' k) → enc m = enc m') :
    ((∀ k, lookupA (machineEdges g a) k = lookupA (machineEdges g' a') k) →
      isoHash enc hf g a = isoHash enc hf g' a')
    ∧ ((getSt g a).edges.Perm (getSt g' a').edges →
      NodupKeys (getSt g a).edges → (∀ d, getId g d = getId g' d) →
      isoHash enc hf g a = isoHash enc hf g' a') := by
  constructor
  · intro h
    unfold isoHash
    rw [hcanon _ _ h]
  · intro hperm hnd hids
    unfold isoHash
    refine congrArg hf (hcanon _ _ ?_)
    intro k
    have hmape : machineEdges g' a' =
        (getSt g' a').edges.map (fun e => (e.1, getId g e.2)) := by
      unfold machineEdges
      exact List.map_congr_left (fun e _ => by rw [hids e.2])
    rw [hmape]
    refine lookupA_of_perm (List.Perm.map _ hperm) ?_ k
    unfold NodupKeys at hnd ⊢
    simpa [Function.comp] using hnd

/-- Heap for the C4 counterexample: a single edge-less state. -/
def c4Heap : Heap Nat Nat :=
  [(0, { id := 7, terminal := false, edges := [], annotations := some [] })]

/-- C4 counterexample: the constant function is a legitimate instance of
the injected 32-bit hash capability (any hash with finitely many values
must collide on the infinitely many possible MachineEdges maps; the
constant one is the smallest such witness).  Configured with the canonical
encoder encCanon and that hash, adding a self-edge through AddEdge changes
the state's MachineEdges but not its IsomorphismHash, so the hash does not
change whenever MachineEdges changes. -/
theorem c4_isoHash_cex :
    (addEdgeH c4Heap 0 3 0).2 = .ok ()
    ∧ machineEdges (addEdgeH c4Heap 0 3 0).1 0 ≠ machineEdges c4Heap 0
    ∧ isoHash encCanon (fun _ => 0) (addEdgeH c4Heap 0 3 0).1 0 =
        isoHash encCanon (fun _ => 0) c4Heap 0 := by
  refine ⟨by decide, by decide, rfl⟩

/-- Witness heap: state 0 with edges inserted as 5 then 6. -/
def c4wA : Heap Nat Nat :=
  [(0, { id := 0, terminal := false, edges := [(5, 1), (6, 2)],
         annotations := some [] }),
   (1, { id := 1, terminal := false, edges := [], annotations := some [] }),
   (2, { id := 2, terminal := false, edges := [], annotations := some [] })]

/-- Witness heap: the same state with its edges inserted as 6 then 5. -/
def c4wB : Heap Nat Nat :=
  [(0, { id := 0, terminal := false, edges := [(6, 2), (5, 1)],
         annotations := some [] }),
   (1, { id := 1, terminal := false, edges := [], annotations := some [] }),
   (2, { id := 2, terminal := false, edges := [], annotations := some [] })]

theorem c4_isoHash_witness :
    isoHash encCanon (fun bs => bs.foldr (fun x h => x + 31 * h) 1)
        c4wA 0 =
      isoHash encCanon (fun bs => bs.foldr (fun x h => x + 31 * h) 1)
        c4wB 0 :=
  (c4_isoHash_spec encCanon (fun bs => bs.foldr (fun x h => x + 31 * h) 1)
    c4wA c4wB 0 0 (fun _ _ h => encCanon_canonical h)).1
    (by
      intro k
      show lookupA [((5 : Nat), (1 : Int)), (6, 2)] k =
        lookupA [((6 : Nat), (2 : Int)), (5, 1)] k
      by_cases h5 : k = 5 <;> by_cases h6 : k = 6 <;>
        simp [lookupA, h5, h6])

theorem c8_factory_witness :
    ((newAnnotatedSt (L := Nat) (A := Nat) 5).id = 5 ∧ (6 : Int) = 5 + 1)
    ∧ runCalls (L := Nat) (A := Nat)
        { idCounter := 0, defaultStateType := lazyDfaAnnotatedType }
        [.newState, .newState, .newState] =
      ({ idCounter := 3, defaultStateType := lazyDfaAnnotatedType },
       [0, 1, 2]) :=
  ⟨(c8_factory_spec (L := Nat) (A := Nat)
      { idCounter := 5, defaultStateType := lazyDfaAnnotatedType }
      { idCounter := 6, defaultStateType := lazyDfaAnnotatedType }
      (newAnnotatedSt 5) (newAnnotatedSt 0) []).1 rfl,
   (c8_factory_spec (L := Nat) (A := Nat)
      { idCounter := 5, defaultStateType := lazyDfaAnnotatedType }
      { idCounter := 6, defaultStateType := lazyDfaAnnotatedType }
      (newAnnotatedSt 5) (newAnnotatedSt 0) []).2.2.2.2.2⟩

/-!  Claim C2: Register.Initialize validates minimality of the reachable
graph.  The development below models the depth-first traversal loop and
characterizes its verdict by a condition on the graph alone. -/

/-- Every edge destination of every state of the heap is itself a state of
the heap (Go guarantees this structurally: an edge stores a non-nil State
pointer). -/
def ClosedHeap (g : Heap L A) : Prop :=
  ∀ p ∈ g, ∀ e ∈ (Prod.snd p).edges, Prod.snd e ∈ g.map Prod.fst

/-- Each address occurs once in the heap (distinct pointers). -/
def HeapNodup (g : Heap L A) : Prop :=
  (g.map Prod.fst).Nodup

instance (g : Heap L A) : Decidable (ClosedHeap g) := by
  unfold ClosedHeap
  infer_instance

instance (g : Heap L A) : Decidable (HeapNodup g) := by
  unfold HeapNodup
  infer_instance

/-- The ids present in the heap. -/
def idsOf (g : Heap L A) : Finset Int :=
  (g.map (fun p => (Prod.snd p).id)).toFinset

/-- Graph reachability along edges, from the start state. -/
inductive Reach (g : Heap L A) (s : Nat) : Nat → Prop
  | refl : Reach g s s
  | step (a d : Nat) (st : St L A) (l : L) : Reach g s a →
      lookupA g a = some st → (l, d) ∈ st.edges → Reach g s d

/-- Two distinct-by-id reachable states with equal MachineEdges: the claim
C2's failure condition, a property of the graph alone (independent of any
traversal order). -/
def BadPair (g : Heap L A) (s : Nat) : Prop :=
  ∃ a b, Reach g s a ∧ Reach g s b ∧ getId g a ≠ getId g b ∧
    sameMachineEdges (machineEdges g a) (machineEdges g b) = true

theorem mem_keys_exists {κ β : Type} [DecidableEq κ] {xs : List (κ × β)}
    {k : κ} (h : k ∈ xs.map Prod.fst) : ∃ v, lookupA xs k = some v := by
  cases hcase : lookupA xs k with
  | some v => exact ⟨v, rfl⟩
  | none => exact absurd h ((lookupA_none_iff xs k).mp hcase)

theorem getId_mem_idsOf {g : Heap L A} {a : Nat}
    (h : a ∈ g.map Prod.fst) : getId g a ∈ idsOf g := by
  obtain ⟨st, hst⟩ := mem_keys_exists h
  unfold getId getSt idsOf
  rw [hst]
  rw [List.mem_toFinset, List.mem_map]
  exact ⟨(a, st), mem_of_lookupA hst, rfl⟩

theorem reach_dom {g : Heap L A} {s : Nat} (hclosed : ClosedHeap g)
    (hs : s ∈ g.map Prod.fst) {a : Nat} (h : Reach g s a) :
    a ∈ g.map Prod.fst := by
  induction h with
  | refl => exact hs
  | step a d st l _ hlk he ih =>
    exact hclosed (a, st) (mem_of_lookupA hlk) (l, d) he

theorem followAll_mem {g : Heap L A} {a d : Nat}
    (h : d ∈ followAllEdges (getSt g a)) :
    ∃ l, (l, d) ∈ (getSt g a).edges := by
  unfold followAllEdges at h
  rw [List.mem_dedup, List.mem_map] at h
  obtain ⟨⟨l, d'⟩, hm, hd⟩ := h
  subst hd
  exact ⟨l, hm⟩

theorem reach_step_mem {g : Heap L A} {s a d : Nat} {l : L}
    (ha : Reach g s a) (hdom : a ∈ g.map Prod.fst)
    (he : (l, d) ∈ (getSt g a).edges) : Reach g s d := by
  obtain ⟨st, hst⟩ := mem_keys_exists hdom
  refine Reach.step a d st l ha hst ?_
  unfold getSt at he
  rw [hst] at he
  exact he

/-- Replacing an existing bucket by the same bucket with one state
appended permutes the register's address inventory to the old inventory
plus that state. -/
theorem flatMap_setA_append (m : List (Nat × List Nat)) (h : Nat)
    (b : List Nat) (c : Nat) (hbk : lookupA m h = some b) :
    ((setA m h (b ++ [c])).flatMap Prod.snd).Perm
      (m.flatMap Prod.snd ++ [c]) := by
  induction m with
  | nil => simp [lookupA] at hbk
  | cons p rest ih =>
    obtain ⟨k, w⟩ := p
    by_cases hk : h = k
    · subst hk
      have hwb : w = b := by simpa [lookupA] using hbk
      subst hwb
      rw [show setA ((h, w) :: rest) h (w ++ [c]) =
          (h, w ++ [c]) :: rest from by simp [setA]]
      simp only [List.flatMap_cons]
      rw [List.append_assoc, List.append_assoc]
      exact List.Perm.append_left w List.perm_append_comm
    · rw [show setA ((k, w) :: rest) h (b ++ [c]) =
          (k, w) :: setA rest h (b ++ [c]) from by simp [setA, hk]]
      simp only [lookupA, if_neg hk] at hbk
      simp only [List.flatMap_cons]
      rw [List.append_assoc]
      exact List.Perm.append_left w (ih hbk)

/-- Creating a new bucket appends its state to the address inventory. -/
theorem flatMap_setA_new (m : List (Nat × List Nat)) (h : Nat) (c : Nat)
    (hbk : lookupA m h = none) :
    (setA m h [c]).flatMap Prod.snd = m.flatMap Prod.snd ++ [c] := by
  induction m with
  | nil => simp [setA]
  | cons p rest ih =>
    obtain ⟨k, w⟩ := p
    by_cases hk : h = k
    · subst hk
      simp [lookupA] at hbk
    · rw [show setA ((k, w) :: rest) h [c] =
          (k, w) :: setA rest h [c] from by simp [setA, hk]]
      simp only [lookupA, if_neg hk] at hbk
      simp only [List.flatMap_cons, ih hbk, List.append_assoc]

theorem mem_regAddrs_iff {r : Reg} {a : Nat} :
    a ∈ regAddrs r ↔ ∃ hb ∈ r.ecMap, a ∈ Prod.snd hb := by
  unfold regAddrs
  rw [List.mem_flatMap]

/-- The inventory bundle of one pushSucc call: the destinations whose ids
were new are pushed (in some order) on top of the old stack, their ids are
fresh, pairwise distinct, and recorded, and afterwards every
destination's id is in the visited set. -/
theorem pushSucc_bundle (g : Heap L A) (seen : Finset Int)
    (stk : List Nat) (ds : List Nat) :
    ∃ pushed : List Nat,
      (pushSucc g (seen, stk) ds).2 = pushed ++ stk
      ∧ (∀ x ∈ pushed, x ∈ ds)
      ∧ (pushed.map (getId g)).Nodup
      ∧ (∀ x ∈ pushed, getId g x ∉ seen)
      ∧ (pushSucc g (seen, stk) ds).1 =
          seen ∪ (pushed.map (getId g)).toFinset
      ∧ (∀ d ∈ ds, getId g d ∈ (pushSucc g (seen, stk) ds).1) := by
  induction ds generalizing seen stk with
  | nil =>
    refine ⟨[], rfl, by simp, by simp, by simp, by simp [pushSucc],
      by simp⟩
  | cons d ds ih =>
    by_cases hd : getId g d ∈ seen
    · have hstep : pushSucc g (seen, stk) (d :: ds) =
          pushSucc g (seen, stk) ds := by
        simp [pushSucc, List.foldl_cons, hd]
      obtain ⟨pushed, h1, h2, h3, h4, h5, h6⟩ := ih seen stk
      refine ⟨pushed, hstep ▸ h1, ?_, h3, h4, hstep ▸ h5, ?_⟩
      · intro x hx
        exact List.mem_cons_of_mem _ (h2 x hx)
      · intro d' hd'
        rcases List.mem_cons.mp hd' with h | h
        · subst h
          rw [hstep, h5]
          exact Finset.mem_union_left _ hd
        · rw [hstep]
          exact h6 d' h
    · have hstep : pushSucc g (seen, stk) (d :: ds) =
          pushSucc g (insert (getId g d) seen, d :: stk) ds := by
        simp [pushSucc, List.foldl_cons, hd]
      obtain ⟨pushed, h1, h2, h3, h4, h5, h6⟩ :=
        ih (insert (getId g d) seen) (d :: stk)
      refine ⟨pushed ++ [d], ?_, ?_, ?_, ?_, ?_, ?_⟩
      · rw [hstep, h1, List.append_assoc]
        rfl
      · intro x hx
        rcases List.mem_append.mp hx with h | h
        · exact List.mem_cons_of_mem _ (h2 x h)
        · rw [List.mem_singleton.mp h]
          exact List.mem_cons_self _ _
      · rw [List.map_append]
        refine List.Nodup.append h3 (by simp) ?_
        intro i hi hi2
        simp only [List.map_cons, List.map_nil, List.mem_singleton] at hi2
        subst hi2
        rw [List.mem_map] at hi
        obtain ⟨x, hx, hgx⟩ := hi
        have := h4 x hx
        rw [hgx] at this
        exact this (Finset.mem_insert_self _ _)
      · intro x hx
        rcases List.mem_append.mp hx with h | h
        · intro hc
          exact h4 x h (Finset.mem_insert_of_mem hc)
        · rw [List.mem_singleton.mp h]
          exact hd
      · rw [hstep, h5, List.map_append]
        simp only [List.map_cons, List.map_nil]
        rw [List.toFinset_append]
        ext i
        simp only [Finset.mem_union, Finset.mem_insert, List.mem_toFinset,
          List.mem_cons, List.not_mem_nil, or_false, Finset.mem_singleton]
        constructor
        · rintro (⟨h | h⟩ | h)
          · exact Or.inr (Or.inr h)
          · exact Or.inl h
          · exact Or.inr (Or.inl h)
        · rintro (h | h | h)
          · exact Or.inl (Or.inr h)
          · exact Or.inr h
          · exact Or.inl (Or.inl h)
      · intro d' hd'
        rcases List.mem_cons.mp hd' with h | h
        · subst h
          rw [hstep, h5]
          exact Finset.mem_union_left _ (Finset.mem_insert_self _ _)
        · rw [hstep]
          exact h6 d' h

/-- The invariant of the Initialize traversal loop for a fixed hash
function, graph and start state: everything registered or stacked is a
reachable state of the graph, the visited-id set is exactly the ids of
the registered and stacked states, stacked ids are pairwise distinct and
disjoint from registered ids, buckets are keyed by their members' hashes
with unique keys, registered states are pairwise structurally distinct,
every edge out of a registered state leads to a visited id, and the start
state is registered or stacked. -/
structure LoopInv (hashOf : List (L × Int) → Nat) (g : Heap L A)
    (start : Nat) (r : Reg) (seen : Finset Int) (stack : List Nat) :
    Prop where
  regDom : ∀ a ∈ regAddrs r, a ∈ g.map Prod.fst
  regReach : ∀ a ∈ regAddrs r, Reach g start a
  stkDom : ∀ a ∈ stack, a ∈ g.map Prod.fst
  stkReach : ∀ a ∈ stack, Reach g start a
  stkIdsNodup : (stack.map (getId g)).Nodup
  regStkDisj : ∀ a ∈ regAddrs r, ∀ b ∈ stack, getId g a ≠ getId g b
  seenEq : seen = ((regAddrs r ++ stack).map (getId g)).toFinset
  bucketHash : ∀ hb ∈ r.ecMap, ∀ a ∈ Prod.snd hb,
      hashOf (machineEdges g a) = Prod.fst hb
  ecKeysNodup : NodupKeys r.ecMap
  regDistinct : ∀ a ∈ regAddrs r, ∀ b ∈ regAddrs r, a ≠ b →
      sameMachineEdges (machineEdges g a) (machineEdges g b) = false
  ledger : ∀ a ∈ regAddrs r, ∀ e ∈ (getSt g a).edges, getId g e.2 ∈ seen
  startIn : start ∈ regAddrs r ∨ start ∈ stack

/-- Every registered address is found (with its bucket) by looking up the
hash of its own MachineEdges. -/
theorem reg_bucket {hashOf : List (L × Int) → Nat} {g : Heap L A}
    {r : Reg} {a : Nat} (hkeys : NodupKeys r.ecMap)
    (hbh : ∀ hb ∈ r.ecMap, ∀ x ∈ Prod.snd hb,
      hashOf (machineEdges g x) = Prod.fst hb)
    (ha : a ∈ regAddrs r) :
    ∃ bk, lookupA r.ecMap (hashOf (machineEdges g a)) = some bk ∧
      a ∈ bk := by
  obtain ⟨hb, hm, hab⟩ := mem_regAddrs_iff.mp ha
  obtain ⟨h', bk⟩ := hb
  have hh : hashOf (machineEdges g a) = h' := hbh (h', bk) hm a hab
  refine ⟨bk, ?_, hab⟩
  rw [hh]
  exact lookupA_of_mem hkeys hm

/-- When the stack has emptied, the registered set is closed under edges
and contains the start state, hence contains every reachable state. -/
theorem loopInv_complete {hashOf : List (L × Int) → Nat} {g : Heap L A}
    {start : Nat} {r : Reg} {seen : Finset Int}
    (hids : ∀ a b, Reach g start a → Reach g start b → a ≠ b →
      getId g a ≠ getId g b)
    (inv : LoopInv hashOf g start r seen []) :
    ∀ d, Reach g start d → d ∈ regAddrs r := by
  intro d hd
  induction hd with
  | refl =>
    rcases inv.startIn with h | h
    · exact h
    · simp at h
  | step a d st l hra hlk he ih =>
    have hd_seen : getId g d ∈ seen := by
      refine inv.ledger a ih (l, d) ?_
      unfold getSt
      rw [hlk]
      exact he
    rw [inv.seenEq, List.append_nil, List.mem_toFinset, List.mem_map]
      at hd_seen
    obtain ⟨a', ha', hgid⟩ := hd_seen
    have hreach_d : Reach g start d := Reach.step a d st l hra hlk he
    by_cases hda : a' = d
    · rw [← hda]
      exact ha'
    · exact absurd hgid
        (hids a' d (inv.regReach a' ha') hreach_d hda)

/-- Registering the popped state and pushing its unseen successors
re-establishes the loop invariant and shrinks the termination bound by
one, provided the new register permutes the old registered inventory plus
the popped state and satisfies the bucket conditions. -/
theorem register_step {hashOf : List (L × Int) → Nat} {g : Heap L A}
    {start : Nat} (hclosed : ClosedHeap g)
    {r r' : Reg} {seen : Finset Int} {curr : Nat} {rest : List Nat}
    (inv : LoopInv hashOf g start r seen (curr :: rest))
    (hperm : (regAddrs r').Perm (regAddrs r ++ [curr]))
    (hbh' : ∀ hb ∈ r'.ecMap, ∀ x ∈ Prod.snd hb,
      hashOf (machineEdges g x) = Prod.fst hb)
    (hkeys' : NodupKeys r'.ecMap)
    (hdist' : ∀ a ∈ regAddrs r', ∀ b ∈ regAddrs r', a ≠ b →
      sameMachineEdges (machineEdges g a) (machineEdges g b) = false)
    (hsub : seen ⊆ idsOf g) :
    LoopInv hashOf g start r'
      (pushSucc g (seen, rest) (followAllEdges (getSt g curr))).1
      (pushSucc g (seen, rest) (followAllEdges (getSt g curr))).2
    ∧ (pushSucc g (seen, rest) (followAllEdges (getSt g curr))).1 ⊆
        idsOf g
    ∧ ∀ fuel : Nat,
        (curr :: rest).length + ((idsOf g).card - seen.card) < fuel + 1 →
        (pushSucc g (seen, rest) (followAllEdges (getSt g curr))).2.length
          + ((idsOf g).card -
            (pushSucc g (seen, rest)
              (followAllEdges (getSt g curr))).1.card) < fuel := by
  obtain ⟨pushed, hp1, hp2, hp3, hp4, hp5, hp6⟩ :=
    pushSucc_bundle g seen rest (followAllEdges (getSt g curr))
  have hcd : curr ∈ g.map Prod.fst := inv.stkDom curr (List.mem_cons_self _ _)
  have hcr : Reach g start curr := inv.stkReach curr (List.mem_cons_self _ _)
  have hpushed_dom : ∀ x ∈ pushed, x ∈ g.map Prod.fst := by
    intro x hx
    obtain ⟨l, he⟩ := followAll_mem (hp2 x hx)
    obtain ⟨st, hst⟩ := mem_keys_exists hcd
    refine hclosed (curr, st) (mem_of_lookupA hst) (l, x) ?_
    unfold getSt at he
    rw [hst] at he
    exact he
  have hpushed_reach : ∀ x ∈ pushed, Reach g start x := by
    intro x hx
    obtain ⟨l, he⟩ := followAll_mem (hp2 x hx)
    exact reach_step_mem hcr hcd he
  have hseen_reg : ∀ a ∈ regAddrs r, getId g a ∈ seen := by
    intro a ha
    rw [inv.seenEq, List.mem_toFinset, List.mem_map]
    exact ⟨a, List.mem_append.mpr (Or.inl ha), rfl⟩
  have hseen_stk : ∀ a ∈ curr :: rest, getId g a ∈ seen := by
    intro a ha
    rw [inv.seenEq, List.mem_toFinset, List.mem_map]
    exact ⟨a, List.mem_append.mpr (Or.inr ha), rfl⟩
  have hrest_nodup : (rest.map (getId g)).Nodup := by
    have := inv.stkIdsNodup
    simp only [List.map_cons, List.nodup_cons] at this
    exact this.2
  have hcurr_rest : ∀ b ∈ rest, getId g curr ≠ getId g b := by
    have := inv.stkIdsNodup
    simp only [List.map_cons, List.nodup_cons] at this
    intro b hb hc
    exact this.1 (hc ▸ List.mem_map.mpr ⟨b, hb, rfl⟩)
  have hmem_r' : ∀ a, a ∈ regAddrs r' ↔ a ∈ regAddrs r ∨ a = curr := by
    intro a
    rw [hperm.mem_iff, List.mem_append, List.mem_singleton]
  refine ⟨?_, ?_, ?_⟩
  · refine ⟨?_, ?_, ?_, ?_, ?_, ?_, ?_, hbh', hkeys', hdist', ?_, ?_⟩
    · intro a ha
      rcases (hmem_r' a).mp ha with h | h
      · exact inv.regDom a h
      · exact h ▸ hcd
    · intro a ha
      rcases (hmem_r' a).mp ha with h | h
      · exact inv.regReach a h
      · exact h ▸ hcr
    · intro a ha
      rw [hp1, List.mem_append] at ha
      rcases ha with h | h
      · exact hpushed_dom a h
      · exact inv.stkDom a (List.mem_cons_of_mem _ h)
    · intro a ha
      rw [hp1, List.mem_append] at ha
      rcases ha with h | h
      · exact hpushed_reach a h
      · exact inv.stkReach a (List.mem_cons_of_mem _ h)
    · rw [hp1, List.map_append]
      refine List.Nodup.append hp3 hrest_nodup ?_
      intro i hi hi'
      rw [List.mem_map] at hi hi'
      obtain ⟨x, hx, hgx⟩ := hi
      obtain ⟨y, hy, hgy⟩ := hi'
      refine hp4 x hx ?_
      rw [hgx, ← hgy]
      exact hseen_stk y (List.mem_cons_of_mem _ hy)
    · intro a ha b hb
      rw [hp1, List.mem_append] at hb
      rcases (hmem_r' a).mp ha with h1 | h1 <;> rcases hb with h2 | h2
      · intro hc
        exact hp4 b h2 (hc ▸ hseen_reg a h1)
      · exact inv.regStkDisj a h1 b (List.mem_cons_of_mem _ h2)
      · intro hc
        refine hp4 b h2 (hc ▸ ?_)
        rw [h1]
        exact hseen_stk curr (List.mem_cons_self _ _)
      · rw [h1]
        exact hcurr_rest b h2
    · rw [hp1, hp5, inv.seenEq]
      ext i
      simp only [Finset.mem_union, List.mem_toFinset, List.mem_map,
        List.mem_append, List.mem_cons]
      constructor
      · rintro (⟨x, hx, hgx⟩ | ⟨x, hx, hgx⟩)
        · rcases hx with hx | hx | hx
          · exact ⟨x, Or.inl ((hmem_r' x).mpr (Or.inl hx)), hgx⟩
          · exact ⟨x, Or.inl ((hmem_r' x).mpr (Or.inr hx)), hgx⟩
          · exact ⟨x, Or.inr (Or.inr hx), hgx⟩
        · exact ⟨x, Or.inr (Or.inl hx), hgx⟩
      · rintro ⟨x, hx, hgx⟩
        rcases hx with hx | hx
        · rcases (hmem_r' x).mp hx with h | h
          · exact Or.inl ⟨x, Or.inl h, hgx⟩
          · exact Or.inl ⟨x, Or.inr (Or.inl h), hgx⟩
        · rcases hx with h | h
          · exact Or.inr ⟨x, h, hgx⟩
          · exact Or.inl ⟨x, Or.inr (Or.inr h), hgx⟩
    · intro a ha e he
      rcases (hmem_r' a).mp ha with h | h
      · rw [hp5]
        exact Finset.mem_union_left _ (inv.ledger a h e he)
      · subst h
        have hds : Prod.snd e ∈ followAllEdges (getSt g a) := by
          unfold followAllEdges
          rw [List.mem_dedup, List.mem_map]
          exact ⟨e, he, rfl⟩
        exact hp6 _ hds
    · rcases inv.startIn with h | h
      · exact Or.inl ((hmem_r' start).mpr (Or.inl h))
      · rcases List.mem_cons.mp h with h1 | h1
        · exact Or.inl ((hmem_r' start).mpr (Or.inr h1))
        · refine Or.inr ?_
          rw [hp1, List.mem_append]
          exact Or.inr h1
  · intro i hi
    rw [hp5, Finset.mem_union] at hi
    rcases hi with h | h
    · exact hsub h
    · rw [List.mem_toFinset, List.mem_map] at h
      obtain ⟨x, hx, hgx⟩ := h
      exact hgx ▸ getId_mem_idsOf (hpushed_dom x hx)
  · intro fuel hbound
    have hstklen : (pushSucc g (seen, rest)
        (followAllEdges (getSt g curr))).2.length =
        pushed.length + rest.length := by
      rw [hp1, List.length_append]
    have hdisj : Disjoint seen (pushed.map (getId g)).toFinset := by
      rw [Finset.disjoint_right]
      intro i hi
      rw [List.mem_toFinset, List.mem_map] at hi
      obtain ⟨x, hx, hgx⟩ := hi
      exact hgx ▸ hp4 x hx
    have hcardp : (pushed.map (getId g)).toFinset.card = pushed.length := by
      rw [List.toFinset_card_of_nodup hp3, List.length_map]
    have hcard : (pushSucc g (seen, rest)
        (followAllEdges (getSt g curr))).1.card =
        seen.card + pushed.length := by
      rw [hp5, Finset.card_union_of_disjoint hdisj, hcardp]
    have hle : (pushSucc g (seen, rest)
        (followAllEdges (getSt g curr))).1.card ≤ (idsOf g).card := by
      refine Finset.card_le_card ?_
      intro i hi
      rw [hp5, Finset.mem_union] at hi
      rcases hi with h | h
      · exact hsub h
      · rw [List.mem_toFinset, List.mem_map] at h
        obtain ⟨x, hx, hgx⟩ := h
        exact hgx ▸ getId_mem_idsOf (hpushed_dom x hx)
    simp only [List.length_cons] at hbound
    omega

/-- Main characterization of the Initialize traversal loop: under the
invariant and with adequate fuel, it returns ok exactly when the reachable
graph has no two distinct-by-id states with equal MachineEdges, and
NonMinimalMachine exactly when it has such a pair. -/
theorem initLoop_main (hashOf : List (L × Int) → Nat) (g : Heap L A)
    (start : Nat)
    (hcanon : ∀ m m', (∀ k, lookupA m k = lookupA m' k) →
      hashOf m = hashOf m')
    (hwf : EdgesWF g) (hclosed : ClosedHeap g)
    (hids : ∀ a b, Reach g start a → Reach g start b → a ≠ b →
      getId g a ≠ getId g b) :
    ∀ (fuel : Nat) (r : Reg) (seen : Finset Int) (stack : List Nat),
      LoopInv hashOf g start r seen stack →
      seen ⊆ idsOf g →
      stack.length + ((idsOf g).card - seen.card) < fuel →
      ((initLoop hashOf g fuel r seen stack).2 = .ok () ∧
        ¬ BadPair g start)
      ∨ ((initLoop hashOf g fuel r seen stack).2 =
          .error .nonMinimalMachine ∧ BadPair g start) := by
  intro fuel
  induction fuel with
  | zero =>
    intro r seen stack inv hsub hbound
    exact absurd hbound (Nat.not_lt_zero _)
  | succ fuel ih =>
    intro r seen stack inv hsub hbound
    cases stack with
    | nil =>
      left
      refine ⟨rfl, ?_⟩
      rintro ⟨a, b, hra, hrb, hid, hsme⟩
      have hcomp := loopInv_complete hids inv
      have hab : a ≠ b := fun hc => hid (by rw [hc])
      have := inv.regDistinct a (hcomp a hra) b (hcomp b hrb) hab
      rw [hsme] at this
      cases this
    | cons curr rest =>
      cases hbk : lookupA r.ecMap (hashOf (machineEdges g curr)) with
      | none =>
        have hgec : getEquivalenceClass hashOf g r (some curr) =
            ({ ecMap := (setA r.ecMap (hashOf (machineEdges g curr))
              [curr]) }, .ok curr) := by
          simp only [getEquivalenceClass, hbk]
        have hloop : initLoop hashOf g (fuel + 1) r seen (curr :: rest) =
            initLoop hashOf g fuel
              { ecMap := (setA r.ecMap (hashOf (machineEdges g curr))
                [curr]) }
              (pushSucc g (seen, rest)
                (followAllEdges (getSt g curr))).1
              (pushSucc g (seen, rest)
                (followAllEdges (getSt g curr))).2 := by
          simp only [initLoop, hgec]
          rw [if_true]
        have hnotk : hashOf (machineEdges g curr) ∉ r.ecMap.map Prod.fst :=
          (lookupA_none_iff _ _).mp hbk
        have hperm : (regAddrs { ecMap :=
            (setA r.ecMap (hashOf (machineEdges g curr)) [curr]) } :
            List Nat).Perm (regAddrs r ++ [curr]) := by
          have heq : regAddrs { ecMap :=
              (setA r.ecMap (hashOf (machineEdges g curr)) [curr]) } =
              regAddrs r ++ [curr] :=
            flatMap_setA_new r.ecMap _ curr hbk
          rw [heq]
        have hbh' : ∀ hb ∈ (setA r.ecMap (hashOf (machineEdges g curr))
            [curr]), ∀ x ∈ Prod.snd hb,
            hashOf (machineEdges g x) = Prod.fst hb := by
          intro hb hm x hx
          rcases mem_setA hm with h1 | h1
          · subst h1
            rw [List.mem_singleton.mp hx]
          · exact inv.bucketHash hb h1 x hx
        have hkeys' : NodupKeys (setA r.ecMap
            (hashOf (machineEdges g curr)) [curr]) := by
          unfold NodupKeys
          rw [keys_setA, if_neg hnotk]
          refine List.Nodup.append inv.ecKeysNodup
            (List.nodup_singleton _) ?_
          intro k hk hk2
          rw [List.mem_singleton.mp hk2] at hk
          exact hnotk hk
        have hdist' : ∀ a ∈ regAddrs { ecMap :=
            (setA r.ecMap (hashOf (machineEdges g curr)) [curr]) },
            ∀ b ∈ regAddrs { ecMap :=
              (setA r.ecMap (hashOf (machineEdges g curr)) [curr]) },
            a ≠ b → sameMachineEdges (machineEdges g a)
              (machineEdges g b) = false := by
          intro a ha b hb hab
          rw [hperm.mem_iff, List.mem_append, List.mem_singleton] at ha hb
          rcases ha with ha | ha <;> rcases hb with hb | hb
          · exact inv.regDistinct a ha b hb hab
          · subst hb
            by_contra hc
            rw [Bool.not_eq_false] at hc
            have hhash : hashOf (machineEdges g a) =
                hashOf (machineEdges g b) :=
              hcanon _ _ (sme_lookup (nodup_me hwf a) (nodup_me hwf b) hc)
            obtain ⟨bk, hlk, _⟩ :=
              reg_bucket inv.ecKeysNodup inv.bucketHash ha
            rw [hhash, hbk] at hlk
            cases hlk
          · subst ha
            by_contra hc
            rw [Bool.not_eq_false] at hc
            have hhash : hashOf (machineEdges g b) =
                hashOf (machineEdges g a) :=
              hcanon _ _ (sme_lookup (nodup_me hwf b) (nodup_me hwf a)
                (sme_symm (nodup_me hwf a) (nodup_me hwf b) hc))
            obtain ⟨bk, hlk, _⟩ :=
              reg_bucket inv.ecKeysNodup inv.bucketHash hb
            rw [hhash, hbk] at hlk
            cases hlk
          · exact absurd (ha.trans hb.symm) hab
        obtain ⟨inv', hsub', hboundf⟩ :=
          register_step hclosed inv hperm hbh' hkeys' hdist' hsub
        rw [hloop]
        exact ih _ _ _ inv' hsub' (hboundf fuel hbound)
      | some b =>
        cases hfind : b.find? (fun s => sameMachineEdges
            (machineEdges g curr) (machineEdges g s)) with
        | some s =>
          have hgec : getEquivalenceClass hashOf g r (some curr) =
              (r, .ok s) := by
            simp only [getEquivalenceClass, hbk, hfind]
          have hsreg : s ∈ regAddrs r :=
            mem_regAddrs_iff.mpr ⟨(hashOf (machineEdges g curr), b),
              mem_of_lookupA hbk, List.mem_of_find?_eq_some hfind⟩
          have hid_ne : getId g s ≠ getId g curr :=
            inv.regStkDisj s hsreg curr (List.mem_cons_self _ _)
          have hsme : sameMachineEdges (machineEdges g curr)
              (machineEdges g s) = true := by
            have := List.find?_some hfind
            simpa using this
          right
          constructor
          · simp only [initLoop, hgec]
            rw [if_neg hid_ne]
          · exact ⟨curr, s, inv.stkReach curr (List.mem_cons_self _ _),
              inv.regReach s hsreg, fun hc => hid_ne hc.symm, hsme⟩
        | none =>
          have hgec : getEquivalenceClass hashOf g r (some curr) =
              ({ ecMap := (setA r.ecMap (hashOf (machineEdges g curr))
                (b ++ [curr])) }, .ok curr) := by
            simp only [getEquivalenceClass, hbk, hfind]
          have hloop : initLoop hashOf g (fuel + 1) r seen (curr :: rest) =
              initLoop hashOf g fuel
                { ecMap := (setA r.ecMap (hashOf (machineEdges g curr))
                  (b ++ [curr])) }
                (pushSucc g (seen, rest)
                  (followAllEdges (getSt g curr))).1
                (pushSucc g (seen, rest)
                  (followAllEdges (getSt g curr))).2 := by
            simp only [initLoop, hgec]
            rw [if_true]
          have hperm : (regAddrs { ecMap :=
              (setA r.ecMap (hashOf (machineEdges g curr))
                (b ++ [curr])) } :
              List Nat).Perm (regAddrs r ++ [curr]) :=
            flatMap_setA_append r.ecMap _ b curr hbk
          have hbh' : ∀ hb ∈ (setA r.ecMap (hashOf (machineEdges g curr))
              (b ++ [curr])), ∀ x ∈ Prod.snd hb,
              hashOf (machineEdges g x) = Prod.fst hb := by
            intro hb hm x hx
            rcases mem_setA hm with h1 | h1
            · subst h1
              rcases List.mem_append.mp hx with h2 | h2
              · exact inv.bucketHash _ (mem_of_lookupA hbk) x h2
              · rw [List.mem_singleton.mp h2]
            · exact inv.bucketHash hb h1 x hx
          have hkeys' : NodupKeys (setA r.ecMap
              (hashOf (machineEdges g curr)) (b ++ [curr])) := by
            have hmemk : hashOf (machineEdges g curr) ∈
                r.ecMap.map Prod.fst := by
              by_contra hc
              rw [(lookupA_none_iff _ _).mpr hc] at hbk
              cases hbk
            unfold NodupKeys
            rw [keys_setA, if_pos hmemk]
            exact inv.ecKeysNodup
          have hdist' : ∀ a ∈ regAddrs { ecMap :=
              (setA r.ecMap (hashOf (machineEdges g curr))
                (b ++ [curr])) },
              ∀ x ∈ regAddrs { ecMap :=
                (setA r.ecMap (hashOf (machineEdges g curr))
                  (b ++ [curr])) },
              a ≠ x → sameMachineEdges (machineEdges g a)
                (machineEdges g x) = false := by
            intro a ha x hx hax
            rw [hperm.mem_iff, List.mem_append, List.mem_singleton]
              at ha hx
            have hall := List.find?_eq_none.mp hfind
            rcases ha with ha | ha <;> rcases hx with hx | hx
            · exact inv.regDistinct a ha x hx hax
            · subst hx
              by_contra hc
              rw [Bool.not_eq_false] at hc
              have hhash : hashOf (machineEdges g a) =
                  hashOf (machineEdges g x) :=
                hcanon _ _ (sme_lookup (nodup_me hwf a) (nodup_me hwf x)
                  hc)
              obtain ⟨bk, hlk, habk⟩ :=
                reg_bucket inv.ecKeysNodup inv.bucketHash ha
              rw [hhash, hbk] at hlk
              have hbkb : bk = b := (Option.some.inj hlk).symm
              rw [hbkb] at habk
              have := hall a habk
              rw [sme_symm (nodup_me hwf a) (nodup_me hwf x) hc] at this
              exact this rfl
            · subst ha
              by_contra hc
              rw [Bool.not_eq_false] at hc
              have hhash : hashOf (machineEdges g a) =
                  hashOf (machineEdges g x) :=
                hcanon _ _ (sme_lookup (nodup_me hwf a) (nodup_me hwf x)
                  hc)
              obtain ⟨bk, hlk, hxbk⟩ :=
                reg_bucket inv.ecKeysNodup inv.bucketHash hx
              rw [← hhash, hbk] at hlk
              have hbkb : bk = b := (Option.some.inj hlk).symm
              rw [hbkb] at hxbk
              exact hall x hxbk hc
            · exact absurd (ha.trans hx.symm) hax
          obtain ⟨inv', hsub', hboundf⟩ :=
            register_step hclosed inv hperm hbh' hkeys' hdist' hsub
          rw [hloop]
          exact ih _ _ _ inv' hsub' (hboundf fuel hbound)

/-- C2 (amended): for a finite well-formed graph (unique Go-map keys,
closed edges) whose reachable states have pairwise distinct StateIds, and
a hash that is a function of the MachineEdges map (canonical encoder plus
hash capability), Register.Initialize from a non-nil start fails with
NonMinimalMachine exactly when two distinct reachable states (distinct by
StateId) have equal MachineEdges maps, and succeeds exactly when every
reachable state is its own equivalence-class representative.  The
right-hand side is a property of the graph alone, stated for every edge
ordering, so the verdict does not depend on the unspecified order in
which sibling edges are traversed.  Without the distinct-id proviso the
equivalence fails: see the counterexample. -/
theorem c2_init_spec (hashOf : List (L × Int) → Nat) (g : Heap L A)
    (r : Reg) (start : Nat)
    (hcanon : ∀ m m', (∀ k, lookupA m k = lookupA m' k) →
      hashOf m = hashOf m')
    (hwf : EdgesWF g) (hclosed : ClosedHeap g)
    (hstart : start ∈ g.map Prod.fst)
    (hids : ∀ a b, Reach g start a → Reach g start b → a ≠ b →
      getId g a ≠ getId g b) :
    ((initReg hashOf g r (some start)).2 = .error .nonMinimalMachine ↔
      BadPair g start)
    ∧ ((initReg hashOf g r (some start)).2 = .ok () ↔
      ¬ BadPair g start) := by
  have hinv : LoopInv hashOf g start resetReg {getId g start} [start] := by
    refine ⟨?_, ?_, ?_, ?_, ?_, ?_, ?_, ?_, ?_, ?_, ?_, ?_⟩
    · intro a ha
      simp [regAddrs, resetReg] at ha
    · intro a ha
      simp [regAddrs, resetReg] at ha
    · intro a ha
      rw [List.mem_singleton.mp ha]
      exact hstart
    · intro a ha
      rw [List.mem_singleton.mp ha]
      exact Reach.refl
    · simp
    · intro a ha
      simp [regAddrs, resetReg] at ha
    · simp [regAddrs, resetReg]
    · intro hb hm
      simp [resetReg] at hm
    · simp [resetReg, NodupKeys]
    · intro a ha
      simp [regAddrs, resetReg] at ha
    · intro a ha
      simp [regAddrs, resetReg] at ha
    · exact Or.inr (List.mem_singleton.mpr rfl)
  have hsub0 : ({getId g start} : Finset Int) ⊆ idsOf g := by
    intro i hi
    rw [Finset.mem_singleton] at hi
    exact hi ▸ getId_mem_idsOf hstart
  have hbound0 : [start].length +
      ((idsOf g).card - ({getId g start} : Finset Int).card) <
      g.length + 1 := by
    have hNle : (idsOf g).card ≤ g.length := by
      refine le_trans (List.toFinset_card_le _) ?_
      rw [List.length_map]
    have hlen : 0 < g.length := by
      refine List.length_pos.mpr ?_
      rintro rfl
      simp at hstart
    simp only [List.length_singleton, Finset.card_singleton]
    omega
  have hmain := initLoop_main hashOf g start hcanon hwf hclosed
    hids (g.length + 1) resetReg {getId g start} [start] hinv hsub0 hbound0
  have hred : initReg hashOf g r (some start) =
      initLoop hashOf g (g.length + 1) resetReg {getId g start} [start] :=
    rfl
  rw [hred]
  rcases hmain with ⟨hok, hnb⟩ | ⟨herr, hb⟩
  · refine ⟨⟨fun h => ?_, fun h => absurd h hnb⟩,
      ⟨fun _ => hnb, fun _ => hok⟩⟩
    rw [hok] at h
    exact Except.noConfusion h
  · refine ⟨⟨fun _ => hb, fun _ => herr⟩,
      ⟨fun h => ?_, fun h => absurd hb h⟩⟩
    rw [herr] at h
    exact Except.noConfusion h

/-- The duplicate-id counterexample graph: the start state 0 (id 0) steps
to state 1 (id 1) and state 3 (id 2); state 1 steps to state 2, which has
id 1 as well -- the same id as state 1 -- and no edges; state 3 has no
edges either. -/
def c2Heap : Heap Nat Nat :=
  [(0, { id := 0, terminal := false, edges := [(10, 1), (11, 3)],
         annotations := some [] }),
   (1, { id := 1, terminal := false, edges := [(12, 2)],
         annotations := some [] }),
   (2, { id := 1, terminal := false, edges := [], annotations := some [] }),
   (3, { id := 2, terminal := false, edges := [], annotations := some [] })]

/-- C2 counterexample: on c2Heap -- where the reachable states 2 and 3
are distinct by StateId (ids 1 and 2) and have equal (empty) MachineEdges
-- Initialize nevertheless succeeds, because the id-keyed visited set
makes the traversal skip state 2 (its id was already seen at state 1).
The claim's equivalence therefore fails as stated; it needs the proviso
that reachable states have pairwise distinct ids. -/
theorem c2_init_cex :
    (initReg (fun m => (encCanon m).length) c2Heap resetReg
      (some 0)).2 = .ok ()
    ∧ Reach c2Heap 0 2 ∧ Reach c2Heap 0 3
    ∧ getId c2Heap 2 ≠ getId c2Heap 3
    ∧ sameMachineEdges (machineEdges c2Heap 2) (machineEdges c2Heap 3) =
        true := by
  refine ⟨by decide, ?_, ?_, by decide, by decide⟩
  · exact Reach.step 1 2 _ 12
      (Reach.step 0 1 _ 10 Reach.refl rfl (by decide)) rfl (by decide)
  · exact Reach.step 0 3 _ 11 Reach.refl rfl (by decide)

/-- A distinct-id graph with a genuinely non-minimal machine: states 1
and 2 are both edge-less with different ids. -/
def c2wHeap : Heap Nat Nat :=
  [(0, { id := 0, terminal := false, edges := [(10, 1), (11, 2)],
         annotations := some [] }),
   (1, { id := 1, terminal := false, edges := [], annotations := some [] }),
   (2, { id := 2, terminal := false, edges := [], annotations := some [] })]

theorem c2_init_witness :
    (initReg (fun m => (encCanon m).length) c2wHeap resetReg
      (some 0)).2 = .error .nonMinimalMachine :=
  (c2_init_spec (fun m => (encCanon m).length) c2wHeap resetReg 0
    (fun _ _ h => congrArg List.length (encCanon_canonical h))
    (by decide) (by decide) (by decide)
    (by
      intro a b hra hrb hab
      have ha := reach_dom (by decide) (by decide) hra
      have hb := reach_dom (by decide) (by decide) hrb
      simp only [c2wHeap, List.map_cons, List.map_nil, List.mem_cons,
        List.not_mem_nil, or_false] at ha hb
      rcases ha with rfl | rfl | rfl <;> rcases hb with rfl | rfl | rfl <;>
        first
          | exact absurd rfl hab
          | decide)).1.mpr
    ⟨1, 2, Reach.step 0 1 _ 10 Reach.refl rfl (by decide),
      Reach.step 0 2 _ 11 Reach.refl rfl (by decide),
      by decide, by decide⟩

end Wilddawg
